import Mathlib

/-!
# makexindex: the ASCII to binary cross-index converter

A shallow embedding of `src/tools/stardb/makexindex.cpp` (Celestia) and the
properties of it that the design document states, together with the two constants of
`src/celengine/stardb.h` that bound the catalog identifier space.

* Streams.  A `std::istream` over a fixed character sequence is the unread
  characters together with its `eofbit` and `failbit` (a stream over a fixed
  sequence never sets `badbit`).  A `std::ostream` is the list of bytes written
  so far; writes do not fail.
* Machine integers are naturals, reduced `% 2 ^ 32` where the source converts to
  `uint32_t` or increments an `unsigned int` (taken to be 32 bits wide).
* The `while` loop of `WriteCrossIndex` is run with fuel; `WriteCrossIndexLoop_fuel`
  shows that the length of the unread input plus one is always enough.
-/

namespace StarDatabase

/-! ## Catalog identifiers (`celengine/stardb.h`) -/

/-- Modelled from the spec: the largest value of `AstroCatalog::IndexNumber`.  The type
is declared in `astroobj.h`, which is not among the sources; catalog identifiers are
unsigned 32-bit integers. -/
def IndexNumber_MAX : Nat := 2 ^ 32 - 1

/-- The constant `StarDatabase::MAX_HIPPARCOS_NUMBER`: any star with a catalog number
greater than this is assumed not to be a HIPPARCOS star. -/
def MAX_HIPPARCOS_NUMBER : Nat := 999999

/-- The default member initialiser of `StarDatabase::nextAutoCatalogNumber`, the counter
from which identifiers are assigned to records that bring none. -/
def nextAutoCatalogNumber : Nat := 0xfffffffe

end StarDatabase

namespace Makexindex

/-! ## Byte order (`celutil/bytes.h`) -/

/-- Bytes of a 32-bit unsigned object in the order they lie in memory on the host;
`be` says that the host is big-endian. -/
def mem32 (be : Bool) (n : Nat) : List Nat :=
  if be then [n / 16777216 % 256, n / 65536 % 256, n / 256 % 256, n % 256]
  else [n % 256, n / 256 % 256, n / 65536 % 256, n / 16777216 % 256]

/-- Bytes of a 16-bit object in host memory order. -/
def mem16 (be : Bool) (n : Nat) : List Nat :=
  if be then [n / 256 % 256, n % 256] else [n % 256, n / 256 % 256]

/-- Byte swap of a 32-bit value. -/
def bswap_32 (n : Nat) : Nat :=
  n % 256 * 16777216 + n / 256 % 256 * 65536 + n / 65536 % 256 * 256 + n / 16777216 % 256

/-- Byte swap of a 16-bit value. -/
def bswap_16 (n : Nat) : Nat :=
  n % 256 * 256 + n / 256 % 256

/-- Modelled from the spec: the macro `LE_TO_CPU_INT32` of `celutil/bytes.h`, which is
not among the sources.  The format is little-endian on every host, so the macro is the
identity on a little-endian host and a byte swap on a big-endian one. -/
def LE_TO_CPU_INT32 (be : Bool) (val : Nat) : Nat :=
  if be then bswap_32 val else val

/-- Modelled from the spec: the macro `LE_TO_CPU_INT16` of `celutil/bytes.h`, which is
not among the sources; the 16-bit analogue of `LE_TO_CPU_INT32`. -/
def LE_TO_CPU_INT16 (be : Bool) (val : Nat) : Nat :=
  if be then bswap_16 val else val

/-- The function `writeUint(out, n)`: convert to file byte order, then write the four bytes of the
object as they lie in memory. -/
def writeUint (be : Bool) (out : List Nat) (n : Nat) : List Nat :=
  out ++ mem32 be (LE_TO_CPU_INT32 be n)

/-- The function `writeShort(out, n)`, the 16-bit analogue of `writeUint`. -/
def writeShort (be : Bool) (out : List Nat) (n : Nat) : List Nat :=
  out ++ mem16 be (LE_TO_CPU_INT16 be n)

/-! ## Formatted input (`std::istream`, classic locale) -/

/-- State of a `std::istream` reading from a fixed character sequence. -/
structure IStream where
  /-- characters not yet extracted -/
  buf : List Char
  eofbit : Bool
  failbit : Bool
  deriving DecidableEq, Repr

/-- The call `in.eof()`: `eofbit` is set. -/
def IStream.eof (s : IStream) : Bool := s.eofbit

/-- The call `in.good()`: no state bit is set. -/
def IStream.good (s : IStream) : Bool := !s.eofbit && !s.failbit

/-- The whitespace of `std::isspace` in the classic locale: space, `\t`, `\n`, `\v`, `\f`, `\r`. -/
def isSpace (c : Char) : Bool :=
  c.toNat = 32 || (9 ≤ c.toNat && c.toNat ≤ 13)

/-- Decimal digit characters. -/
def isDigit (c : Char) : Bool :=
  48 ≤ c.toNat && c.toNat ≤ 57

/-- Value of a decimal digit character. -/
def digitVal (c : Char) : Nat := c.toNat - 48

/-- Value of a run of decimal digits, most significant first. -/
def decValue (ds : List Char) : Nat :=
  ds.foldl (fun acc c => 10 * acc + digitVal c) 0

/-- Whitespace skipping done by the input sentry. -/
def skipWs : List Char → List Char
  | [] => []
  | c :: cs => if isSpace c then skipWs cs else c :: cs

/-- Largest value of `unsigned int`. -/
def UINT_MAX : Nat := 4294967295

/-- The extraction `in >> v` for `unsigned int v` (`basefield` is `dec`).

The sentry fails, setting `failbit` and leaving `v` alone, when the stream is not good;
otherwise it skips whitespace and, when that reaches the end, sets `eofbit` and
`failbit`.  Then `num_get` takes an optional sign and the longest run of decimal
digits; reaching the end of the characters while doing so sets `eofbit`.  No digit:
`v = 0` and `failbit`.  A value above `UINT_MAX`: `v = UINT_MAX` and `failbit`.
Otherwise `v` is the value, negated modulo `2 ^ 32` after a minus sign. -/
def extractUInt (s : IStream) (v : Nat) : IStream × Nat :=
  if !s.good then
    ({ s with failbit := true }, v)
  else
    let cs := skipWs s.buf
    if cs.isEmpty then
      ({ buf := [], eofbit := true, failbit := true }, v)
    else
      let negative := cs.head? == some '-'
      let signed := negative || cs.head? == some '+'
      let body := if signed then cs.tail else cs
      let digits := body.takeWhile isDigit
      let rest := body.dropWhile isDigit
      let atEnd := rest.isEmpty
      if digits.isEmpty then
        ({ buf := rest, eofbit := atEnd, failbit := true }, 0)
      else if decValue digits > UINT_MAX then
        ({ buf := rest, eofbit := atEnd, failbit := true }, UINT_MAX)
      else
        ({ buf := rest, eofbit := atEnd, failbit := false },
          if negative then (2 ^ 32 - decValue digits) % 2 ^ 32 else decValue digits)

/-! ## `WriteCrossIndex` -/

/-- What a call of `WriteCrossIndex` leaves behind: its return value, the bytes on
`out`, and the record number of the diagnostic on `cerr`, if one was printed. -/
structure WriteResult where
  success : Bool
  out : List Nat
  errorRecord : Option Nat
  deriving DecidableEq, Repr

/-- The literal `"CELINDEX"` as bytes. -/
def magic : List Nat := [67, 69, 76, 73, 78, 68, 69, 88]

/-- The `while (!in.eof())` loop of `WriteCrossIndex`.  The two `unsigned int`
variables are declared without initialiser in the body; their value before the
extraction is taken as `0` (it is only read after an extraction that stored one). -/
def WriteCrossIndexLoop (be : Bool) : Nat → IStream → List Nat → Nat → Option WriteResult
  | 0, _, _, _ => none
  | fuel + 1, inp, out, record =>
    if inp.eof then
      some ⟨true, out, none⟩
    else
      let r1 := extractUInt inp 0
      if r1.1.eof then
        some ⟨true, out, none⟩
      else
        let r2 := extractUInt r1.1 0
        if !r2.1.good then
          some ⟨false, out, some record⟩
        else
          let out1 := writeUint be out (r1.2 % 2 ^ 32)
          let out2 := writeUint be out1 (r2.2 % 2 ^ 32)
          WriteCrossIndexLoop be fuel r2.1 out2 ((record + 1) % 2 ^ 32)

/-- The function `WriteCrossIndex(in, out)` on a fresh input stream over `input` and an empty
output stream: the magic, the version, then the loop. -/
def WriteCrossIndex (be : Bool) (input : List Char) : Option WriteResult :=
  WriteCrossIndexLoop be (input.length + 1) ⟨input, false, false⟩
    (writeShort be (magic) 256) 0

/-! ## Command line and `main` -/

/-- The two file-scope strings `inputFilename` and `outputFilename`. -/
structure Filenames where
  inputFilename : String
  outputFilename : String
  deriving DecidableEq, Repr

/-- The test `argv[i][0] == '-'` (the first character of an empty argument is the terminating
NUL). -/
def isSwitch (arg : String) : Bool := arg.data.head? == some '-'

/-- The `while (i < argc)` loop of `parseCommandLine` over the arguments from `argv[i]`
on, with the current `fileCount` and file-scope strings. -/
def parseCommandLineLoop : List String → Nat → Filenames → Bool × Filenames
  | [], _, g => (true, g)
  | arg :: rest, fileCount, g =>
    if isSwitch arg then
      (false, g)
    else if fileCount = 0 then
      parseCommandLineLoop rest (fileCount + 1) { g with inputFilename := arg }
    else if fileCount = 1 then
      parseCommandLineLoop rest (fileCount + 1) { g with outputFilename := arg }
    else
      (false, g)

/-- The function `parseCommandLine(argc, argv)`: `argv` is the whole vector, program name first, and
the file-scope strings start out empty. -/
def parseCommandLine (argv : List String) : Bool × Filenames :=
  parseCommandLineLoop (argv.drop 1) 0 ⟨"", ""⟩

/-- What `main` can see of the outside: the characters on standard input, the files
that open for reading (with their contents) and the files that open for writing. -/
structure Env where
  cin : List Char
  openIn : String → Option (List Char)
  openOut : String → Bool

/-- Where `inputFile` points. -/
inductive InputSel where
  | cin
  | fin (name : String)
  deriving DecidableEq, Repr

/-- Where `outputFile` points. -/
inductive OutputSel where
  | cout
  | fout (name : String)
  deriving DecidableEq, Repr

/-- One run of `main`: the exit code, the two streams handed to `WriteCrossIndex` (when
it was reached) and the bytes written to the output stream. -/
structure Run where
  exitCode : Int
  inputFile : Option InputSel
  outputFile : Option OutputSel
  written : List Nat
  deriving DecidableEq, Repr

/-- The run in which `WriteCrossIndex` was called on the two streams and left `r`:
`return success ? 0 : 1`. -/
def Run.ofWrite (inputFile : InputSel) (outputFile : OutputSel) (r : WriteResult) : Run :=
  ⟨if r.success then 0 else 1, some inputFile, some outputFile, r.out⟩

/-- The function `main(argc, argv)`.  The result is `none` only if the loop of
`WriteCrossIndex` ran out of fuel, which `WriteCrossIndex_total` excludes. -/
def main (be : Bool) (env : Env) (argv : List String) : Option Run :=
  let cl := parseCommandLine argv
  if !cl.1 then
    some ⟨1, none, none, []⟩
  else
    let inputFilename := cl.2.inputFilename
    let outputFilename := cl.2.outputFilename
    let fin : Option (InputSel × List Char) :=
      if inputFilename ≠ "" then
        (env.openIn inputFilename).map (fun cs => (InputSel.fin inputFilename, cs))
      else
        some (InputSel.cin, env.cin)
    match fin with
    | none => some ⟨1, none, none, []⟩
    | some (inputFile, input) =>
      let fout : Option OutputSel :=
        if outputFilename ≠ "" then
          (if env.openOut outputFilename then some (OutputSel.fout outputFilename) else none)
        else
          some OutputSel.cout
      match fout with
      | none => some ⟨1, none, none, []⟩
      | some outputFile =>
        (WriteCrossIndex be input).map (Run.ofWrite inputFile outputFile)

/-! ## Reference points of the specification -/

/-- The four bytes of `n` least significant first. -/
def le32Bytes (n : Nat) : List Nat :=
  [n % 256, n / 256 % 256, n / 65536 % 256, n / 16777216 % 256]

/-- The header every cross-index file starts with: `"CELINDEX"`, then the version
`0x0100` as bytes `0x00 0x01`. -/
def header : List Nat := [67, 69, 76, 73, 78, 68, 69, 88, 0, 1]

/-- The 8 bytes of one record as `WriteCrossIndex` writes it: `writeUint` of the
external number, then `writeUint` of the internal one. -/
def recordBytes (be : Bool) (p : Nat × Nat) : List Nat :=
  writeUint be (writeUint be [] p.1) p.2

/-- The bytes of a sequence of records. -/
def recordsBytes (be : Bool) : List (Nat × Nat) → List Nat
  | [] => []
  | p :: ps => recordBytes be p ++ recordsBytes be ps

/-- Fuel-free run of the loop: the loop with the fuel `WriteCrossIndex` gives it for the
unread input of `s`. -/
def runLoop (be : Bool) (s : IStream) (out : List Nat) (record : Nat) : Option WriteResult :=
  WriteCrossIndexLoop be (s.buf.length + 1) s out record

/-- A decimal token of a text together with the whitespace right after it. -/
structure Token where
  digits : List Char
  sep : List Char
  deriving DecidableEq, Repr

/-- The number a token denotes. -/
def Token.value (t : Token) : Nat := decValue t.digits

/-- An unsigned decimal token below `2 ^ 32`: a non-empty run of decimal digits of value
below `2 ^ 32`, followed by whitespace characters only. -/
def Token.WF (t : Token) : Prop :=
  t.digits ≠ [] ∧ (∀ c ∈ t.digits, isDigit c = true) ∧ t.value < 2 ^ 32 ∧
    (∀ c ∈ t.sep, isSpace c = true)

instance (t : Token) : Decidable t.WF := by
  unfold Token.WF
  infer_instance

/-- The text of a sequence of tokens: each token's digits, then its whitespace. -/
def tokensText : List Token → List Char
  | [] => []
  | t :: ts => t.digits ++ (t.sep ++ tokensText ts)

/-- The pairs (external, internal) of a sequence of numbers read two by two; a last
number without partner is not a pair. -/
def pairsOf : List Nat → List (Nat × Nat)
  | a :: b :: rest => (a, b) :: pairsOf rest
  | _ => []

/-- The number whose little-endian bytes are `b0 b1 b2 b3`. -/
def le32 (b0 b1 b2 b3 : Nat) : Nat := b0 + 256 * b1 + 65536 * b2 + 16777216 * b3

/-- Records of the documented format: consecutive pairs of 4-byte little-endian unsigned
integers up to the end of the bytes; a trailing partial record is a format error. -/
def readPairs : List Nat → Option (List (Nat × Nat))
  | [] => some []
  | a0 :: a1 :: a2 :: a3 :: b0 :: b1 :: b2 :: b3 :: rest =>
    (readPairs rest).map (fun ps => (le32 a0 a1 a2 a3, le32 b0 b1 b2 b3) :: ps)
  | _ => none

/-- Decoding by the documented cross-index format: the 8-byte magic and the 2-byte
version are checked and skipped, then consecutive pairs of 4-byte little-endian
unsigned integers are read to the end of the stream; a wrong magic or version or a
trailing partial record is a format error. -/
def decodeCrossIndex (bytes : List Nat) : Option (List (Nat × Nat)) :=
  if bytes.take 10 = header then readPairs (bytes.drop 10) else none

/-- The characters of the stream `main` reads for the given file names, when that stream
opens: the named input file, or standard input for an empty name. -/
def inputChars (env : Env) (names : Filenames) : Option (List Char) :=
  if names.inputFilename ≠ "" then env.openIn names.inputFilename else some env.cin

/-- Whether the stream `main` writes to for the given file names opens: the named
output file, or standard output for an empty name. -/
def outputOpens (env : Env) (names : Filenames) : Bool :=
  if names.outputFilename ≠ "" then env.openOut names.outputFilename else true

/-- The stage of `extractUInt` behind the sign: the longest run of decimal digits of
`body` is taken, `negative` telling whether a minus sign stood in front of it. -/
def numGet (negative : Bool) (body : List Char) : IStream × Nat :=
  if (body.takeWhile isDigit).isEmpty then
    ({ buf := body.dropWhile isDigit, eofbit := (body.dropWhile isDigit).isEmpty,
       failbit := true }, 0)
  else if decValue (body.takeWhile isDigit) > UINT_MAX then
    ({ buf := body.dropWhile isDigit, eofbit := (body.dropWhile isDigit).isEmpty,
       failbit := true }, UINT_MAX)
  else
    ({ buf := body.dropWhile isDigit, eofbit := (body.dropWhile isDigit).isEmpty,
       failbit := false },
      if negative then (2 ^ 32 - decValue (body.takeWhile isDigit)) % 2 ^ 32
      else decValue (body.takeWhile isDigit))

/-- One field of the input as an extraction takes it: the whitespace skipped in front,
the sign (no character, `-` or `+`) and the run of decimal digits. -/
structure Field where
  lead : List Char
  sign : List Char
  digits : List Char
  deriving DecidableEq, Repr

/-- The characters of a field. -/
def Field.text (f : Field) : List Char := f.lead ++ (f.sign ++ f.digits)

/-- The number an extraction stores for a field: the value of the digits, and `2 ^ 32`
minus that value (modulo `2 ^ 32`) behind a minus sign. -/
def Field.value (f : Field) : Nat :=
  if f.sign = ['-'] then (2 ^ 32 - decValue f.digits) % 2 ^ 32 else decValue f.digits

/-- A field an extraction accepts: whitespace, an optional sign, and a non-empty run of
decimal digits whose value is below `2 ^ 32`. -/
def Field.Valid (f : Field) : Prop :=
  (∀ c ∈ f.lead, isSpace c = true) ∧ (f.sign = [] ∨ f.sign = ['-'] ∨ f.sign = ['+']) ∧
    f.digits ≠ [] ∧ (∀ c ∈ f.digits, isDigit c = true) ∧ decValue f.digits < 2 ^ 32

instance (f : Field) : Decidable f.Valid := by
  unfold Field.Valid
  infer_instance

/-- A field that does not begin with a digit: whitespace or a sign stands in front of
its digits, so that it does not continue a run of digits before it. -/
def Field.Detached (f : Field) : Prop := f.lead ≠ [] ∨ f.sign ≠ []

instance (f : Field) : Decidable f.Detached := by
  unfold Field.Detached
  infer_instance

/-- The characters of a sequence of fields. -/
def fieldsText : List Field → List Char
  | [] => []
  | f :: fs => f.text ++ fieldsText fs

/-- No further record stands at the front of `rest`: it does not begin with two valid
fields, each taken whole, with a further character that is no digit behind the
second. -/
def NoPairAhead (rest : List Char) : Prop :=
  ¬ ∃ (f1 f2 : Field) (rest' : List Char), f1.Valid ∧ f2.Valid ∧ f2.Detached ∧
    rest = f1.text ++ (f2.text ++ rest') ∧ rest' ≠ [] ∧
    ∀ c ∈ rest'.head?, isDigit c = false

/-- The first `k` pairs of an input: the input begins with the `2 * k` valid fields `fs`,
each taken whole (no field continues the digits of the one before, and a character that
is no digit follows the last), and no further record stands at the front of the rest. -/
def LeadingPairs (input : List Char) (fs : List Field) (rest : List Char) (k : Nat) : Prop :=
  fs.length = 2 * k ∧ (∀ f ∈ fs, f.Valid) ∧ (∀ g ∈ fs.tail, g.Detached) ∧
    input = fieldsText fs ++ rest ∧
    (fs ≠ [] → rest ≠ [] ∧ ∀ c ∈ rest.head?, isDigit c = false) ∧
    NoPairAhead rest

/-! ## Bytes -/

theorem bswap_bytes (a b c d : Nat) (ha : a < 256) (hb : b < 256) (hc : c < 256)
    (hd : d < 256) :
    (a * 16777216 + b * 65536 + c * 256 + d) / 16777216 % 256 = a ∧
    (a * 16777216 + b * 65536 + c * 256 + d) / 65536 % 256 = b ∧
    (a * 16777216 + b * 65536 + c * 256 + d) / 256 % 256 = c ∧
    (a * 16777216 + b * 65536 + c * 256 + d) % 256 = d := by
  refine ⟨?_, ?_, ?_, ?_⟩ <;> omega

theorem mem32_LE_TO_CPU_INT32 (be : Bool) (n : Nat) :
    mem32 be (LE_TO_CPU_INT32 be n) = le32Bytes n := by
  cases be
  · simp [mem32, LE_TO_CPU_INT32, le32Bytes]
  · have h := bswap_bytes (n % 256) (n / 256 % 256) (n / 65536 % 256) (n / 16777216 % 256)
      (Nat.mod_lt _ (by decide)) (Nat.mod_lt _ (by decide)) (Nat.mod_lt _ (by decide))
      (Nat.mod_lt _ (by decide))
    simp only [mem32, LE_TO_CPU_INT32, le32Bytes, bswap_32, if_true, h.1, h.2.1, h.2.2.1, h.2.2.2]

theorem writeUint_eq (be : Bool) (out : List Nat) (n : Nat) :
    writeUint be out n = out ++ le32Bytes n := by
  rw [writeUint, mem32_LE_TO_CPU_INT32]

theorem writeShort_version (be : Bool) : writeShort be magic 256 = header := by
  cases be <;> rfl

theorem recordBytes_eq (be : Bool) (p : Nat × Nat) :
    recordBytes be p = le32Bytes p.1 ++ le32Bytes p.2 := by
  simp [recordBytes, writeUint_eq]

theorem recordBytes_length (be : Bool) (p : Nat × Nat) : (recordBytes be p).length = 8 := by
  simp [recordBytes_eq, le32Bytes]

theorem recordsBytes_length (be : Bool) (ps : List (Nat × Nat)) :
    (recordsBytes be ps).length = 8 * ps.length := by
  induction ps with
  | nil => rfl
  | cons p ps ih =>
    simp only [recordsBytes, List.length_append, recordBytes_length, ih, List.length_cons]
    omega

theorem recordsBytes_append (be : Bool) (ps qs : List (Nat × Nat)) :
    recordsBytes be (ps ++ qs) = recordsBytes be ps ++ recordsBytes be qs := by
  induction ps with
  | nil => rfl
  | cons p ps ih => simp [recordsBytes, ih]

/-! ## The extraction never lengthens the unread input -/

theorem skipWs_length_le (cs : List Char) : (skipWs cs).length ≤ cs.length := by
  induction cs with
  | nil => simp [skipWs]
  | cons c cs ih =>
    simp only [skipWs]
    split
    · simp only [List.length_cons]; omega
    · exact Nat.le_refl _

theorem takeWhile_dropWhile_length (p : Char → Bool) (cs : List Char) :
    (cs.takeWhile p).length + (cs.dropWhile p).length = cs.length := by
  rw [← List.length_append, List.takeWhile_append_dropWhile]

theorem extractUInt_length_le (s : IStream) (v : Nat) :
    (extractUInt s v).1.buf.length ≤ s.buf.length := by
  have h1 := skipWs_length_le s.buf
  have h2 := takeWhile_dropWhile_length isDigit (skipWs s.buf)
  have h3 := takeWhile_dropWhile_length isDigit (skipWs s.buf).tail
  have h4 : (skipWs s.buf).tail.length ≤ (skipWs s.buf).length := by simp
  unfold extractUInt
  split
  · simp
  · simp only []
    split
    · simp
    · split <;> split <;> (try split) <;> simp only [] <;> omega

theorem extractUInt_length_lt (s : IStream) (v : Nat)
    (h : (extractUInt s v).1.good = true) :
    (extractUInt s v).1.buf.length < s.buf.length := by
  have h1 := skipWs_length_le s.buf
  have h2 := takeWhile_dropWhile_length isDigit (skipWs s.buf)
  have h3 := takeWhile_dropWhile_length isDigit (skipWs s.buf).tail
  have h4 : (skipWs s.buf).tail.length ≤ (skipWs s.buf).length := by simp
  revert h
  unfold extractUInt
  split
  · rename_i hg
    intro h
    simp [IStream.good] at h hg
  · simp only []
    split
    · simp [IStream.good]
    · split
      · split
        · simp [IStream.good]
        · rename_i hd
          split
          · simp [IStream.good]
          · intro _
            simp only []
            have : 0 < (List.takeWhile isDigit (skipWs s.buf).tail).length := by
              rw [List.length_pos]; intro h0; simp [h0] at hd
            omega
      · split
        · simp [IStream.good]
        · rename_i hd
          split
          · simp [IStream.good]
          · intro _
            simp only []
            have : 0 < (List.takeWhile isDigit (skipWs s.buf)).length := by
              rw [List.length_pos]; intro h0; simp [h0] at hd
            omega

/-! ## Fuel -/

/-- Any two amounts of fuel above the length of the unread input give the same result. -/
theorem WriteCrossIndexLoop_fuel (be : Bool) (f1 : Nat) :
    ∀ (f2 : Nat) (s : IStream) (out : List Nat) (record : Nat),
      s.buf.length < f1 → s.buf.length < f2 →
      WriteCrossIndexLoop be f1 s out record = WriteCrossIndexLoop be f2 s out record := by
  induction f1 with
  | zero => intro f2 s out record h; omega
  | succ f1 ih =>
    intro f2 s out record h1 h2
    cases f2 with
    | zero => omega
    | succ f2 =>
      simp only [WriteCrossIndexLoop]
      by_cases c0 : s.eof = true
      · simp [c0]
      · by_cases c1 : (extractUInt s 0).1.eof = true
        · simp [c0, c1]
        · by_cases c2 : (extractUInt (extractUInt s 0).1 0).1.good = true
          · have l1 := extractUInt_length_le s 0
            have l2 := extractUInt_length_lt (extractUInt s 0).1 0 c2
            simp only [c0, c1, c2, Bool.not_true, if_false, Bool.false_eq_true]
            exact ih _ _ _ _ (by omega) (by omega)
          · simp [c0, c1, c2]

/-- The loop as a recursion equation without fuel. -/
theorem runLoop_step (be : Bool) (s : IStream) (out : List Nat) (record : Nat) :
    runLoop be s out record =
      if s.eof then some ⟨true, out, none⟩
      else if (extractUInt s 0).1.eof then some ⟨true, out, none⟩
      else if !(extractUInt (extractUInt s 0).1 0).1.good then some ⟨false, out, some record⟩
      else runLoop be (extractUInt (extractUInt s 0).1 0).1
        (writeUint be (writeUint be out ((extractUInt s 0).2 % 2 ^ 32))
          ((extractUInt (extractUInt s 0).1 0).2 % 2 ^ 32))
        ((record + 1) % 2 ^ 32) := by
  rw [runLoop, WriteCrossIndexLoop]
  by_cases c0 : s.eof = true
  · simp [c0]
  · by_cases c1 : (extractUInt s 0).1.eof = true
    · simp [c0, c1]
    · by_cases c2 : (extractUInt (extractUInt s 0).1 0).1.good = true
      · have l1 := extractUInt_length_le s 0
        have l2 := extractUInt_length_lt (extractUInt s 0).1 0 c2
        simp only [c0, c1, c2, Bool.not_true, if_false, Bool.false_eq_true]
        rw [runLoop]
        apply WriteCrossIndexLoop_fuel <;> omega
      · simp [c0, c1, c2]

theorem WriteCrossIndex_eq_runLoop (be : Bool) (input : List Char) :
    WriteCrossIndex be input = runLoop be ⟨input, false, false⟩ header 0 := by
  simp only [WriteCrossIndex, runLoop, writeShort_version]

/-- The loop returns: with the fuel `WriteCrossIndex` gives it, it never runs out. -/
theorem runLoop_total (be : Bool) (n : Nat) :
    ∀ (s : IStream) (out : List Nat) (record : Nat), s.buf.length < n →
      ∃ r, runLoop be s out record = some r := by
  induction n with
  | zero => intro s out record h; omega
  | succ n ih =>
    intro s out record h
    rw [runLoop_step]
    by_cases c0 : s.eof = true
    · simp [c0]
    · by_cases c1 : (extractUInt s 0).1.eof = true
      · simp [c0, c1]
      · by_cases c2 : (extractUInt (extractUInt s 0).1 0).1.good = true
        · have l1 := extractUInt_length_le s 0
          have l2 := extractUInt_length_lt (extractUInt s 0).1 0 c2
          simp only [c0, c1, c2, Bool.not_true, if_false, Bool.false_eq_true]
          exact ih _ _ _ (by omega)
        · simp [c0, c1, c2]

theorem WriteCrossIndex_total (be : Bool) (input : List Char) :
    ∃ r, WriteCrossIndex be input = some r := by
  rw [WriteCrossIndex_eq_runLoop]
  exact runLoop_total be (input.length + 1) _ _ _ (Nat.lt_succ_self _)

/-! ## Extraction on a text of decimal tokens -/

theorem isSpace_of_isDigit {c : Char} (h : isDigit c = true) : isSpace c = false := by
  simp only [isDigit, Bool.and_eq_true, decide_eq_true_eq] at h
  simp only [isSpace, Bool.or_eq_false_iff, decide_eq_false_iff_not, Bool.and_eq_false_iff]
  omega

theorem not_sign_of_isDigit {c : Char} (h : isDigit c = true) : c ≠ '-' ∧ c ≠ '+' := by
  constructor <;> (intro hc; subst hc; revert h; decide)

theorem skipWs_append (lead x : List Char) (hl : ∀ c ∈ lead, isSpace c = true) :
    skipWs (lead ++ x) = skipWs x := by
  induction lead with
  | nil => rfl
  | cons c cs ih =>
    have hc : isSpace c = true := hl c (List.mem_cons_self _ _)
    simp only [List.cons_append, skipWs, hc, if_true]
    exact ih (fun d hd => hl d (List.mem_cons_of_mem _ hd))

theorem skipWs_all (lead : List Char) (hl : ∀ c ∈ lead, isSpace c = true) :
    skipWs lead = [] := by
  have := skipWs_append lead [] hl
  simpa [skipWs] using this

theorem skipWs_cons {c : Char} (x : List Char) (hc : isSpace c = false) :
    skipWs (c :: x) = c :: x := by
  simp [skipWs, hc]

theorem takeWhile_run (p : Char → Bool) (ds rest : List Char) (hds : ∀ c ∈ ds, p c = true)
    (hr : ∀ c ∈ rest.head?, p c = false) : (ds ++ rest).takeWhile p = ds := by
  induction ds with
  | nil =>
    cases rest with
    | nil => rfl
    | cons r rs => simp [List.takeWhile, hr r (by simp)]
  | cons d ds ih =>
    rw [List.cons_append, List.takeWhile_cons, hds d (List.mem_cons_self _ _), if_pos rfl,
      ih (fun c hc => hds c (List.mem_cons_of_mem _ hc))]

theorem dropWhile_run (p : Char → Bool) (ds rest : List Char) (hds : ∀ c ∈ ds, p c = true)
    (hr : ∀ c ∈ rest.head?, p c = false) : (ds ++ rest).dropWhile p = rest := by
  induction ds with
  | nil =>
    cases rest with
    | nil => rfl
    | cons r rs => simp [List.dropWhile, hr r (by simp)]
  | cons d ds ih =>
    rw [List.cons_append, List.dropWhile_cons, hds d (List.mem_cons_self _ _), if_pos rfl,
      ih (fun c hc => hds c (List.mem_cons_of_mem _ hc))]

/-- Extraction from a good stream whose unread input is whitespace, then a run of digits
of value below `2 ^ 32`, then something that does not continue the run: the value is
stored, the run is consumed, and `eofbit` is set exactly when nothing follows. -/
theorem extractUInt_run (lead ds rest : List Char) (v : Nat)
    (hl : ∀ c ∈ lead, isSpace c = true) (hne : ds ≠ [])
    (hds : ∀ c ∈ ds, isDigit c = true) (hv : decValue ds < 2 ^ 32)
    (hr : ∀ c ∈ rest.head?, isDigit c = false) :
    extractUInt ⟨lead ++ (ds ++ rest), false, false⟩ v =
      (⟨rest, rest.isEmpty, false⟩, decValue ds) := by
  obtain ⟨d, ds', rfl⟩ := List.exists_cons_of_ne_nil hne
  have hd : isDigit d = true := hds d (List.mem_cons_self _ _)
  have hsk : skipWs (lead ++ d :: (ds' ++ rest)) = d :: (ds' ++ rest) := by
    rw [skipWs_append _ _ hl]
    exact skipWs_cons _ (isSpace_of_isDigit hd)
  have hsg := not_sign_of_isDigit hd
  have ht : List.takeWhile isDigit (d :: (ds' ++ rest)) = d :: ds' :=
    takeWhile_run isDigit (d :: ds') rest hds hr
  have hdr : List.dropWhile isDigit (d :: (ds' ++ rest)) = rest :=
    dropWhile_run isDigit (d :: ds') rest hds hr
  have hv' : ¬ UINT_MAX < decValue (d :: ds') := by
    simp only [UINT_MAX]; omega
  unfold extractUInt
  simp [IStream.good, hsk, hsg.1, hsg.2, ht, hdr, hv']

/-- Extraction from a good stream with nothing but whitespace left: `eofbit` and
`failbit` are set and the variable keeps its value. -/
theorem extractUInt_blank (lead : List Char) (v : Nat)
    (hl : ∀ c ∈ lead, isSpace c = true) :
    extractUInt ⟨lead, false, false⟩ v = (⟨[], true, true⟩, v) := by
  unfold extractUInt
  simp [IStream.good, skipWs_all lead hl]

/-- Extraction from a stream that is not good only sets `failbit`. -/
theorem extractUInt_not_good (s : IStream) (v : Nat) (h : s.good = false) :
    extractUInt s v = ({ s with failbit := true }, v) := by
  unfold extractUInt
  simp [h]

/-! ## The loop on a text of decimal tokens -/

theorem head_sep_not_digit (sep tail : List Char) (hs : ∀ c ∈ sep, isSpace c = true)
    (hne : sep ≠ [] ∨ tail = []) : ∀ c ∈ (sep ++ tail).head?, isDigit c = false := by
  intro c hc
  cases sep with
  | nil =>
    rcases hne with h | h
    · exact absurd rfl h
    · subst h; simp at hc
  | cons s ss =>
    simp only [List.cons_append, List.head?_cons, Option.mem_def, Option.some.injEq] at hc
    subst hc
    have h1 := hs s (List.mem_cons_self _ _)
    cases h2 : isDigit s
    · rfl
    · rw [isSpace_of_isDigit h2] at h1; exact absurd h1 (by decide)

/-- Extraction of a well-formed token that is followed by whitespace or by the end. -/
theorem extractUInt_token (lead : List Char) (t : Token) (tail : List Char) (v : Nat)
    (hl : ∀ c ∈ lead, isSpace c = true) (ht : t.WF) (hne : t.sep ≠ [] ∨ tail = []) :
    extractUInt ⟨lead ++ (t.digits ++ (t.sep ++ tail)), false, false⟩ v =
      (⟨t.sep ++ tail, (t.sep ++ tail).isEmpty, false⟩, t.value) :=
  extractUInt_run lead t.digits (t.sep ++ tail) v hl ht.1 ht.2.1 ht.2.2.1
    (head_sep_not_digit t.sep tail ht.2.2.2 hne)

/-- One turn of the loop on a complete record: two well-formed tokens, each followed by
whitespace.  The record is written and the loop goes on behind the second token. -/
theorem runLoop_pair (be : Bool) (lead : List Char) (a b : Token) (tail : List Char)
    (out : List Nat) (record : Nat)
    (hl : ∀ c ∈ lead, isSpace c = true) (ha : a.WF) (hb : b.WF)
    (hsa : a.sep ≠ []) (hsb : b.sep ≠ []) :
    runLoop be ⟨lead ++ (a.digits ++ (a.sep ++ (b.digits ++ (b.sep ++ tail)))), false, false⟩
        out record =
      runLoop be ⟨b.sep ++ tail, false, false⟩
        (out ++ recordBytes be (a.value, b.value)) ((record + 1) % 2 ^ 32) := by
  have e1 := extractUInt_token lead a (b.digits ++ (b.sep ++ tail)) 0 hl ha (Or.inl hsa)
  have e2 := extractUInt_token a.sep b tail 0 ha.2.2.2 hb (Or.inl hsb)
  have n1 : (a.sep ++ (b.digits ++ (b.sep ++ tail))).isEmpty = false := by
    cases h : a.sep with
    | nil => exact absurd h hsa
    | cons _ _ => rfl
  have n2 : (b.sep ++ tail).isEmpty = false := by
    cases h : b.sep with
    | nil => exact absurd h hsb
    | cons _ _ => rfl
  rw [n1] at e1
  rw [n2] at e2
  rw [runLoop_step]
  simp only [e1, e2, IStream.eof, IStream.good, Bool.false_eq_true, if_false, Bool.not_false,
    Bool.and_self, Bool.not_true, Nat.mod_eq_of_lt ha.2.2.1, Nat.mod_eq_of_lt hb.2.2.1]
  simp only [recordBytes, writeUint_eq, List.append_assoc, List.nil_append]

/-- Nothing but whitespace left at the top of the loop: success. -/
theorem runLoop_blank (be : Bool) (lead : List Char) (out : List Nat) (record : Nat)
    (hl : ∀ c ∈ lead, isSpace c = true) :
    runLoop be ⟨lead, false, false⟩ out record = some ⟨true, out, none⟩ := by
  rw [runLoop_step]
  simp [extractUInt_blank lead 0 hl, IStream.eof]

/-- A last token with no partner that runs up to the end of the input: the extraction
sets `eofbit`, and the loop reports success. -/
theorem runLoop_single_at_end (be : Bool) (lead : List Char) (a : Token)
    (out : List Nat) (record : Nat)
    (hl : ∀ c ∈ lead, isSpace c = true) (ha : a.WF) (hsa : a.sep = []) :
    runLoop be ⟨lead ++ (a.digits ++ (a.sep ++ [])), false, false⟩ out record =
      some ⟨true, out, none⟩ := by
  have e1 := extractUInt_token lead a [] 0 hl ha (Or.inr rfl)
  rw [runLoop_step]
  simp only [e1]
  simp [IStream.eof, hsa]

/-- A last token with no partner that is followed by whitespace: failure. -/
theorem runLoop_single_then_blank (be : Bool) (lead : List Char) (a : Token)
    (out : List Nat) (record : Nat)
    (hl : ∀ c ∈ lead, isSpace c = true) (ha : a.WF) (hsa : a.sep ≠ []) :
    runLoop be ⟨lead ++ (a.digits ++ (a.sep ++ [])), false, false⟩ out record =
      some ⟨false, out, some record⟩ := by
  have e1 := extractUInt_token lead a [] 0 hl ha (Or.inl hsa)
  have n1 : (a.sep ++ []).isEmpty = false := by
    cases h : a.sep with
    | nil => exact absurd h hsa
    | cons _ _ => rfl
  rw [n1] at e1
  have e2 := extractUInt_blank (a.sep ++ []) 0 (by simpa using ha.2.2.2)
  rw [runLoop_step]
  simp only [e1, e2]
  simp [IStream.eof, IStream.good]

/-- A complete record whose second token runs up to the end of the input: the second
extraction sets `eofbit`, the stream is not good, and the record is rejected. -/
theorem runLoop_pair_at_end (be : Bool) (lead : List Char) (a b : Token)
    (out : List Nat) (record : Nat)
    (hl : ∀ c ∈ lead, isSpace c = true) (ha : a.WF) (hb : b.WF)
    (hsa : a.sep ≠ []) (hsb : b.sep = []) :
    runLoop be ⟨lead ++ (a.digits ++ (a.sep ++ (b.digits ++ (b.sep ++ [])))), false, false⟩
        out record =
      some ⟨false, out, some record⟩ := by
  have e1 := extractUInt_token lead a (b.digits ++ (b.sep ++ [])) 0 hl ha (Or.inl hsa)
  have e2 := extractUInt_token a.sep b [] 0 ha.2.2.2 hb (Or.inr rfl)
  have n1 : (a.sep ++ (b.digits ++ (b.sep ++ []))).isEmpty = false := by
    cases h : a.sep with
    | nil => exact absurd h hsa
    | cons _ _ => rfl
  rw [n1] at e1
  rw [runLoop_step]
  simp only [e1, e2]
  simp [IStream.eof, IStream.good, hsb]

/-- The loop over `n` complete records, each token followed by whitespace, with anything
behind them: the `n` records are written in order and the loop goes on behind the last
token, with only whitespace skipped in front of what follows. -/
theorem runLoop_pairs (be : Bool) (n : Nat) :
    ∀ (ts : List Token) (lead tail : List Char) (out : List Nat) (record : Nat),
      ts.length = 2 * n → record < 2 ^ 32 →
      (∀ c ∈ lead, isSpace c = true) → (∀ t ∈ ts, t.WF) → (∀ t ∈ ts, t.sep ≠ []) →
      ∃ lead', (∀ c ∈ lead', isSpace c = true) ∧ (ts = [] → lead' = lead) ∧
        (ts ≠ [] → lead' ≠ []) ∧
        runLoop be ⟨lead ++ (tokensText ts ++ tail), false, false⟩ out record =
          runLoop be ⟨lead' ++ tail, false, false⟩
            (out ++ recordsBytes be (pairsOf (ts.map Token.value)))
            ((record + n) % 2 ^ 32) := by
  induction n with
  | zero =>
    intro ts lead tail out record hlen hr hl _ _
    have : ts = [] := List.length_eq_zero.mp (by omega)
    subst this
    refine ⟨lead, hl, fun _ => rfl, fun h => absurd rfl h, ?_⟩
    rw [Nat.add_zero, Nat.mod_eq_of_lt hr]
    simp [tokensText, pairsOf, recordsBytes]
  | succ n ih =>
    intro ts lead tail out record hlen hr hl hwf hsep
    match ts, hlen, hwf, hsep with
    | [], hlen, _, _ => simp at hlen
    | [_], hlen, _, _ => simp at hlen; omega
    | a :: b :: rest, hlen, hwf, hsep =>
      have ha : a.WF := hwf a (by simp)
      have hb : b.WF := hwf b (by simp)
      have hsa : a.sep ≠ [] := hsep a (by simp)
      have hsb : b.sep ≠ [] := hsep b (by simp)
      have hlen' : rest.length = 2 * n := by simp at hlen; omega
      obtain ⟨lead', hl', hnil, hcons, hrun⟩ := ih rest b.sep tail
        (out ++ recordBytes be (a.value, b.value)) ((record + 1) % 2 ^ 32) hlen'
        (Nat.mod_lt _ (by decide)) hb.2.2.2
        (fun t ht => hwf t (by simp [ht])) (fun t ht => hsep t (by simp [ht]))
      refine ⟨lead', hl', fun h => by simp at h, fun _ => ?_, ?_⟩
      · by_cases hrest : rest = []
        · rw [hnil hrest]; exact hsb
        · exact hcons hrest
      · have htxt : tokensText (a :: b :: rest) ++ tail =
            a.digits ++ (a.sep ++ (b.digits ++ (b.sep ++ (tokensText rest ++ tail)))) := by
          simp [tokensText]
        have hrec : ((record + 1) % 2 ^ 32 + n) % 2 ^ 32 = (record + (n + 1)) % 2 ^ 32 := by
          omega
        rw [htxt, runLoop_pair be lead a b _ out record hl ha hb hsa hsb, hrun, hrec]
        simp [pairsOf, recordsBytes]

/-- The loop on a text of well-formed tokens separated by whitespace, the last token
with or without whitespace behind it: whenever it reports success, the bytes written
are the records of the tokens taken two by two, in order. -/
theorem runLoop_tokens_success (be : Bool) :
    ∀ (ts : List Token) (lead : List Char) (out : List Nat) (record : Nat) (r : WriteResult),
      (∀ c ∈ lead, isSpace c = true) → (∀ t ∈ ts, t.WF) → (∀ t ∈ ts.dropLast, t.sep ≠ []) →
      runLoop be ⟨lead ++ tokensText ts, false, false⟩ out record = some r →
      r.success = true →
      r.out = out ++ recordsBytes be (pairsOf (ts.map Token.value))
  | [], lead, out, record, r, hl, _, _, hrun, _ => by
    simp only [tokensText, List.append_nil] at hrun
    rw [runLoop_blank be lead out record hl] at hrun
    cases hrun
    simp [pairsOf, recordsBytes]
  | [a], lead, out, record, r, hl, hwf, _, hrun, hs => by
    have ha : a.WF := hwf a (by simp)
    simp only [tokensText] at hrun
    by_cases hsa : a.sep = []
    · rw [runLoop_single_at_end be lead a out record hl ha hsa] at hrun
      cases hrun
      simp [pairsOf, recordsBytes]
    · rw [runLoop_single_then_blank be lead a out record hl ha hsa] at hrun
      cases hrun
      simp at hs
  | a :: b :: rest, lead, out, record, r, hl, hwf, hsep, hrun, hs => by
    have ha : a.WF := hwf a (by simp)
    have hb : b.WF := hwf b (by simp)
    have hsa : a.sep ≠ [] := hsep a (by simp [List.dropLast])
    by_cases hsb : b.sep = []
    · have hrest : rest = [] := by
        cases rest with
        | nil => rfl
        | cons c cs => exact absurd hsb (hsep b (by simp [List.dropLast]))
      subst hrest
      simp only [tokensText] at hrun
      rw [runLoop_pair_at_end be lead a b out record hl ha hb hsa hsb] at hrun
      cases hrun
      simp at hs
    · have htxt : tokensText (a :: b :: rest) =
          a.digits ++ (a.sep ++ (b.digits ++ (b.sep ++ tokensText rest))) := by
        simp [tokensText]
      rw [htxt, runLoop_pair be lead a b _ out record hl ha hb hsa hsb] at hrun
      have ih := runLoop_tokens_success be rest b.sep _ _ r hb.2.2.2
        (fun t ht => hwf t (by simp [ht]))
        (fun t ht => hsep t (by
          cases rest with
          | nil => simp at ht
          | cons c cs => simp [List.dropLast] at ht ⊢; tauto))
        hrun hs
      rw [ih]
      simp [pairsOf, recordsBytes]

/-! ## Decoding what was written -/

theorem le32_le32Bytes (n : Nat) (h : n < 2 ^ 32) :
    le32 (n % 256) (n / 256 % 256) (n / 65536 % 256) (n / 16777216 % 256) = n := by
  unfold le32
  omega

theorem readPairs_recordsBytes (be : Bool) (ps : List (Nat × Nat))
    (h : ∀ p ∈ ps, p.1 < 2 ^ 32 ∧ p.2 < 2 ^ 32) :
    readPairs (recordsBytes be ps) = some ps := by
  induction ps with
  | nil => rfl
  | cons p ps ih =>
    have hp := h p (List.mem_cons_self _ _)
    have ih' := ih (fun q hq => h q (List.mem_cons_of_mem _ hq))
    simp only [recordsBytes, recordBytes_eq, le32Bytes, List.cons_append, List.nil_append,
      readPairs, ih', Option.map_some', le32_le32Bytes _ hp.1, le32_le32Bytes _ hp.2]

theorem decodeCrossIndex_header_records (be : Bool) (ps : List (Nat × Nat))
    (h : ∀ p ∈ ps, p.1 < 2 ^ 32 ∧ p.2 < 2 ^ 32) :
    decodeCrossIndex (header ++ recordsBytes be ps) = some ps := by
  have h1 : (header ++ recordsBytes be ps).take 10 = header := by simp [header]
  have h2 : (header ++ recordsBytes be ps).drop 10 = recordsBytes be ps := by simp [header]
  rw [decodeCrossIndex, h1, h2, if_pos rfl, readPairs_recordsBytes be ps h]

theorem pairsOf_bound (bound : Nat) :
    ∀ (vs : List Nat), (∀ v ∈ vs, v < bound) → ∀ p ∈ pairsOf vs, p.1 < bound ∧ p.2 < bound
  | [], _, p, hp => by simp [pairsOf] at hp
  | [_], _, p, hp => by simp [pairsOf] at hp
  | a :: b :: rest, h, p, hp => by
    simp only [pairsOf, List.mem_cons] at hp
    rcases hp with rfl | hp
    · exact ⟨h a (by simp), h b (by simp)⟩
    · exact pairsOf_bound bound rest (fun v hv => h v (by simp [hv])) p hp

theorem pairsOf_length : ∀ (vs : List Nat) (n : Nat), vs.length = 2 * n →
    (pairsOf vs).length = n
  | [], n, h => by simp at h; simp [pairsOf]; omega
  | [_], n, h => by simp at h; omega
  | a :: b :: rest, n, h => by
    cases n with
    | zero => simp at h
    | succ n =>
      simp only [pairsOf, List.length_cons]
      rw [pairsOf_length rest n (by simp at h; omega)]

theorem tokens_values_bound (ts : List Token) (hwf : ∀ t ∈ ts, t.WF) :
    ∀ v ∈ ts.map Token.value, v < 2 ^ 32 := by
  intro v hv
  obtain ⟨t, ht, rfl⟩ := List.mem_map.mp hv
  exact (hwf t ht).2.2.1

/-- The converter on `n` complete records, every token followed by whitespace: success,
and the output is the header followed by the `n` records in order. -/
theorem WriteCrossIndex_terminated (be : Bool) (lead : List Char) (ts : List Token) (n : Nat)
    (hl : ∀ c ∈ lead, isSpace c = true) (hwf : ∀ t ∈ ts, t.WF)
    (hterm : ∀ t ∈ ts, t.sep ≠ []) (hn : ts.length = 2 * n) :
    WriteCrossIndex be (lead ++ tokensText ts) =
      some ⟨true, header ++ recordsBytes be (pairsOf (ts.map Token.value)), none⟩ := by
  obtain ⟨lead', hl', _, _, hrun⟩ := runLoop_pairs be n ts lead [] header 0 hn (by decide)
    hl hwf hterm
  rw [WriteCrossIndex_eq_runLoop]
  simp only [List.append_nil] at hrun
  rw [hrun, runLoop_blank be lead' _ _ hl']

/-- The converter on `n` complete records followed by one more token that runs up to the
end of the input: the dangling token is dropped silently and the result is true. -/
theorem WriteCrossIndex_dangling_at_end (be : Bool) (lead : List Char) (ts : List Token)
    (n : Nat) (a : Token)
    (hl : ∀ c ∈ lead, isSpace c = true) (hwf : ∀ t ∈ ts, t.WF)
    (hterm : ∀ t ∈ ts, t.sep ≠ []) (hn : ts.length = 2 * n)
    (ha : a.WF) (hsa : a.sep = []) :
    WriteCrossIndex be (lead ++ (tokensText ts ++ (a.digits ++ (a.sep ++ [])))) =
      some ⟨true, header ++ recordsBytes be (pairsOf (ts.map Token.value)), none⟩ := by
  obtain ⟨lead', hl', _, _, hrun⟩ := runLoop_pairs be n ts lead
    (a.digits ++ (a.sep ++ [])) header 0 hn (by decide) hl hwf hterm
  rw [WriteCrossIndex_eq_runLoop, hrun, runLoop_single_at_end be lead' a _ _ hl' ha hsa]

/-- The converter on `n` complete records followed by one more token and whitespace: the
second field of record `n` is missing, and the result is false. -/
theorem WriteCrossIndex_dangling_then_blank (be : Bool) (lead : List Char) (ts : List Token)
    (n : Nat) (a : Token)
    (hl : ∀ c ∈ lead, isSpace c = true) (hwf : ∀ t ∈ ts, t.WF)
    (hterm : ∀ t ∈ ts, t.sep ≠ []) (hn : ts.length = 2 * n)
    (ha : a.WF) (hsa : a.sep ≠ []) :
    WriteCrossIndex be (lead ++ (tokensText ts ++ (a.digits ++ (a.sep ++ [])))) =
      some ⟨false, header ++ recordsBytes be (pairsOf (ts.map Token.value)),
        some (n % 2 ^ 32)⟩ := by
  obtain ⟨lead', hl', _, _, hrun⟩ := runLoop_pairs be n ts lead
    (a.digits ++ (a.sep ++ [])) header 0 hn (by decide) hl hwf hterm
  rw [WriteCrossIndex_eq_runLoop, hrun, runLoop_single_then_blank be lead' a _ _ hl' ha hsa,
    Nat.zero_add]

/-- The converter on `n` complete records followed by one more complete pair whose second
token runs up to the end of the input: that pair is rejected and the result is false. -/
theorem WriteCrossIndex_pair_at_end (be : Bool) (lead : List Char) (ts : List Token)
    (n : Nat) (a b : Token)
    (hl : ∀ c ∈ lead, isSpace c = true) (hwf : ∀ t ∈ ts, t.WF)
    (hterm : ∀ t ∈ ts, t.sep ≠ []) (hn : ts.length = 2 * n)
    (ha : a.WF) (hb : b.WF) (hsa : a.sep ≠ []) (hsb : b.sep = []) :
    WriteCrossIndex be
        (lead ++ (tokensText ts ++ (a.digits ++ (a.sep ++ (b.digits ++ (b.sep ++ [])))))) =
      some ⟨false, header ++ recordsBytes be (pairsOf (ts.map Token.value)),
        some (n % 2 ^ 32)⟩ := by
  obtain ⟨lead', hl', _, _, hrun⟩ := runLoop_pairs be n ts lead
    (a.digits ++ (a.sep ++ (b.digits ++ (b.sep ++ [])))) header 0 hn (by decide) hl hwf hterm
  rw [WriteCrossIndex_eq_runLoop, hrun,
    runLoop_pair_at_end be lead' a b _ _ hl' ha hb hsa hsb, Nat.zero_add]

/-! ## Something that is not a number where a field should start -/

/-- Extraction from a good stream whose next character after the whitespace can start
no number (no digit, no sign): `failbit` only, nothing consumed but the whitespace. -/
theorem extractUInt_junk (lead : List Char) (c : Char) (junk : List Char) (v : Nat)
    (hl : ∀ c ∈ lead, isSpace c = true)
    (hd : isDigit c = false) (hs : isSpace c = false) (hm : c ≠ '-') (hp : c ≠ '+') :
    extractUInt ⟨lead ++ c :: junk, false, false⟩ v = (⟨c :: junk, false, true⟩, 0) := by
  have hsk : skipWs (lead ++ c :: junk) = c :: junk := by
    rw [skipWs_append _ _ hl]
    exact skipWs_cons _ hs
  unfold extractUInt
  simp [IStream.good, hsk, hm, hp, hd, List.takeWhile_cons, List.dropWhile_cons]

/-- A record whose first field is a well-formed token followed by whitespace and whose
second field starts with a character that can start no number: failure at this record,
nothing written. -/
theorem runLoop_bad_second (be : Bool) (lead : List Char) (a : Token) (c : Char)
    (junk : List Char) (out : List Nat) (record : Nat)
    (hl : ∀ c ∈ lead, isSpace c = true) (ha : a.WF) (hsa : a.sep ≠ [])
    (hd : isDigit c = false) (hs : isSpace c = false) (hm : c ≠ '-') (hp : c ≠ '+') :
    runLoop be ⟨lead ++ (a.digits ++ (a.sep ++ c :: junk)), false, false⟩ out record =
      some ⟨false, out, some record⟩ := by
  have e1 := extractUInt_token lead a (c :: junk) 0 hl ha (Or.inl hsa)
  have n1 : (a.sep ++ c :: junk).isEmpty = false := by
    cases h : a.sep with
    | nil => exact absurd h hsa
    | cons _ _ => rfl
  rw [n1] at e1
  have e2 := extractUInt_junk a.sep c junk 0 ha.2.2.2 hd hs hm hp
  rw [runLoop_step]
  simp only [e1, e2]
  simp [IStream.eof, IStream.good]

/-- A character that can start no number at the top of the loop: the first extraction
fails without reaching the end, the second finds the stream not good: failure. -/
theorem runLoop_bad_first (be : Bool) (lead : List Char) (c : Char)
    (junk : List Char) (out : List Nat) (record : Nat)
    (hl : ∀ c ∈ lead, isSpace c = true)
    (hd : isDigit c = false) (hs : isSpace c = false) (hm : c ≠ '-') (hp : c ≠ '+') :
    runLoop be ⟨lead ++ c :: junk, false, false⟩ out record =
      some ⟨false, out, some record⟩ := by
  have e1 := extractUInt_junk lead c junk 0 hl hd hs hm hp
  have e2 := extractUInt_not_good ⟨c :: junk, false, true⟩ 0 rfl
  rw [runLoop_step]
  simp only [e1, e2]
  simp [IStream.eof, IStream.good]

/-- A record whose second field is a run of digits of value below `2 ^ 32` directly
followed by a character that is no digit and no whitespace: the run is taken as the
second field, the record is written, and the loop goes on at that character. -/
theorem runLoop_pair_then_junk (be : Bool) (lead : List Char) (a : Token) (ds : List Char)
    (c : Char) (junk : List Char) (out : List Nat) (record : Nat)
    (hl : ∀ c ∈ lead, isSpace c = true) (ha : a.WF) (hsa : a.sep ≠ [])
    (hne : ds ≠ []) (hds : ∀ c ∈ ds, isDigit c = true) (hv : decValue ds < 2 ^ 32)
    (hd : isDigit c = false) :
    runLoop be ⟨lead ++ (a.digits ++ (a.sep ++ (ds ++ c :: junk))), false, false⟩ out record =
      runLoop be ⟨c :: junk, false, false⟩
        (out ++ recordBytes be (a.value, decValue ds)) ((record + 1) % 2 ^ 32) := by
  have e1 := extractUInt_token lead a (ds ++ c :: junk) 0 hl ha (Or.inl hsa)
  have n1 : (a.sep ++ (ds ++ c :: junk)).isEmpty = false := by
    cases h : a.sep with
    | nil => exact absurd h hsa
    | cons _ _ => rfl
  rw [n1] at e1
  have e2 := extractUInt_run a.sep ds (c :: junk) 0 ha.2.2.2 hne hds hv
    (by intro x hx; simp at hx; subst hx; exact hd)
  rw [runLoop_step]
  simp only [e1, e2, IStream.eof, IStream.good, Bool.false_eq_true, if_false, Bool.not_false,
    Bool.and_self, Bool.not_true, Nat.mod_eq_of_lt ha.2.2.1, Nat.mod_eq_of_lt hv,
    List.isEmpty_cons]
  simp only [recordBytes, writeUint_eq, List.append_assoc, List.nil_append]

/-! ## What the loop writes on any input -/

/-- On any input the loop only appends whole records to what was written before. -/
theorem runLoop_out (be : Bool) (n : Nat) :
    ∀ (s : IStream) (out : List Nat) (record : Nat) (r : WriteResult), s.buf.length < n →
      runLoop be s out record = some r → ∃ ps, r.out = out ++ recordsBytes be ps := by
  induction n with
  | zero => intro s out record r h; omega
  | succ n ih =>
    intro s out record r h hrun
    rw [runLoop_step] at hrun
    by_cases c0 : s.eof = true
    · simp only [c0, if_true, Option.some.injEq] at hrun
      subst hrun
      exact ⟨[], by simp [recordsBytes]⟩
    · by_cases c1 : (extractUInt s 0).1.eof = true
      · simp [c0, c1] at hrun
        subst hrun
        exact ⟨[], by simp [recordsBytes]⟩
      · by_cases c2 : (extractUInt (extractUInt s 0).1 0).1.good = true
        · have l1 := extractUInt_length_le s 0
          have l2 := extractUInt_length_lt (extractUInt s 0).1 0 c2
          simp only [c0, c1, c2, Bool.not_true, if_false, Bool.false_eq_true] at hrun
          obtain ⟨ps, hps⟩ := ih _ _ _ r (by omega) hrun
          refine ⟨((extractUInt s 0).2 % 2 ^ 32,
            (extractUInt (extractUInt s 0).1 0).2 % 2 ^ 32) :: ps, ?_⟩
          rw [hps]
          simp only [recordsBytes, recordBytes, writeUint_eq, List.append_assoc,
            List.nil_append]
        · simp [c0, c1, c2] at hrun
          subst hrun
          exact ⟨[], by simp [recordsBytes]⟩

/-- On any input what the loop appends is a sequence of whole records of 32-bit
values. -/
theorem runLoop_out_records (be : Bool) (n : Nat) :
    ∀ (s : IStream) (out : List Nat) (record : Nat) (r : WriteResult), s.buf.length < n →
      runLoop be s out record = some r →
      ∃ ps, (∀ p ∈ ps, p.1 < 2 ^ 32 ∧ p.2 < 2 ^ 32) ∧ r.out = out ++ recordsBytes be ps := by
  induction n with
  | zero => intro s out record r h; omega
  | succ n ih =>
    intro s out record r h hrun
    rw [runLoop_step] at hrun
    by_cases c0 : s.eof = true
    · simp only [c0, if_true, Option.some.injEq] at hrun
      subst hrun
      exact ⟨[], by simp, by simp [recordsBytes]⟩
    · by_cases c1 : (extractUInt s 0).1.eof = true
      · simp [c0, c1] at hrun
        subst hrun
        exact ⟨[], by simp, by simp [recordsBytes]⟩
      · by_cases c2 : (extractUInt (extractUInt s 0).1 0).1.good = true
        · have l1 := extractUInt_length_le s 0
          have l2 := extractUInt_length_lt (extractUInt s 0).1 0 c2
          simp only [c0, c1, c2, Bool.not_true, if_false, Bool.false_eq_true] at hrun
          obtain ⟨ps, hb, hps⟩ := ih _ _ _ r (by omega) hrun
          refine ⟨((extractUInt s 0).2 % 2 ^ 32,
            (extractUInt (extractUInt s 0).1 0).2 % 2 ^ 32) :: ps, ?_, ?_⟩
          · intro p hp
            rcases List.mem_cons.mp hp with rfl | hp
            · exact ⟨Nat.mod_lt _ (by decide), Nat.mod_lt _ (by decide)⟩
            · exact hb p hp
          · rw [hps]
            simp only [recordsBytes, recordBytes, writeUint_eq, List.append_assoc,
              List.nil_append]
        · simp [c0, c1, c2] at hrun
          subst hrun
          exact ⟨[], by simp, by simp [recordsBytes]⟩

/-! ## Extraction on any input: fields -/

theorem skipWs_eq_dropWhile (cs : List Char) : skipWs cs = cs.dropWhile isSpace := by
  induction cs with
  | nil => rfl
  | cons c cs ih =>
    rw [skipWs, List.dropWhile_cons, ih]

theorem mem_takeWhile_true (p : Char → Bool) (cs : List Char) :
    ∀ c ∈ cs.takeWhile p, p c = true := by
  induction cs with
  | nil => intro c hc; simp at hc
  | cons d ds ih =>
    intro c hc
    rw [List.takeWhile_cons] at hc
    by_cases hd : p d = true
    · simp only [hd, if_true, List.mem_cons] at hc
      rcases hc with rfl | hc
      · exact hd
      · exact ih c hc
    · simp [hd] at hc

theorem head_dropWhile_false (p : Char → Bool) (cs : List Char) :
    ∀ c ∈ (cs.dropWhile p).head?, p c = false := by
  induction cs with
  | nil => intro c hc; simp at hc
  | cons d ds ih =>
    intro c hc
    rw [List.dropWhile_cons] at hc
    by_cases hd : p d = true
    · simp only [hd, if_true] at hc
      exact ih c hc
    · simp only [hd, Bool.false_eq_true, if_false, List.head?_cons, Option.mem_def,
        Option.some.injEq] at hc
      subst hc
      simpa using hd

/-- The extraction from a good stream in terms of `numGet`. -/
theorem extractUInt_eq_numGet (buf : List Char) (v : Nat) (c : Char) (body : List Char)
    (hcs : skipWs buf = c :: body) :
    extractUInt ⟨buf, false, false⟩ v =
      if c = '-' then numGet true body
      else if c = '+' then numGet false body
      else numGet false (c :: body) := by
  unfold extractUInt numGet
  by_cases hm : c = '-'
  · subst hm
    simp [IStream.good, hcs]
  · by_cases hp : c = '+'
    · subst hp
      simp [IStream.good, hcs]
    · simp [IStream.good, hcs, hm, hp]

/-- A `numGet` that leaves the stream good has taken a non-empty run of digits of value
below `2 ^ 32`, and a character that is no digit follows the run. -/
theorem numGet_good (negative : Bool) (body : List Char)
    (h : (numGet negative body).1.good = true) :
    ∃ ds rest, body = ds ++ rest ∧ ds ≠ [] ∧ (∀ c ∈ ds, isDigit c = true) ∧
      decValue ds < 2 ^ 32 ∧ rest ≠ [] ∧ (∀ c ∈ rest.head?, isDigit c = false) ∧
      numGet negative body =
        (⟨rest, false, false⟩,
          if negative then (2 ^ 32 - decValue ds) % 2 ^ 32 else decValue ds) := by
  have hsplit := List.takeWhile_append_dropWhile isDigit body
  have hds := mem_takeWhile_true isDigit body
  have hrest := head_dropWhile_false isDigit body
  revert h
  unfold numGet
  by_cases h1 : (body.takeWhile isDigit).isEmpty = true
  · simp [h1, IStream.good]
  · by_cases h2 : decValue (body.takeWhile isDigit) > UINT_MAX
    · simp [h1, h2, IStream.good]
    · by_cases h3 : (body.dropWhile isDigit).isEmpty = true
      · simp [h1, h2, h3, IStream.good]
      · intro _
        refine ⟨body.takeWhile isDigit, body.dropWhile isDigit, hsplit.symm, ?_, hds, ?_, ?_,
          hrest, ?_⟩
        · intro h0; rw [h0] at h1; exact h1 rfl
        · simp only [UINT_MAX] at h2; omega
        · intro h0; rw [h0] at h3; exact h3 rfl
        · simp only [h1, h2, h3, if_false, Bool.false_eq_true]

/-- An extraction that leaves the stream good has taken exactly one valid field from the
front of the unread input, has stored the value of the field, and a character that is
no digit follows the field. -/
theorem extractUInt_good_field (buf : List Char) (v : Nat)
    (h : (extractUInt ⟨buf, false, false⟩ v).1.good = true) :
    ∃ (f : Field) (rest : List Char), f.Valid ∧ buf = f.text ++ rest ∧ rest ≠ [] ∧
      (∀ c ∈ rest.head?, isDigit c = false) ∧
      extractUInt ⟨buf, false, false⟩ v = (⟨rest, false, false⟩, f.value) := by
  have hbuf : buf = buf.takeWhile isSpace ++ skipWs buf := by
    rw [skipWs_eq_dropWhile, List.takeWhile_append_dropWhile]
  have hlead := mem_takeWhile_true isSpace buf
  cases hcs : skipWs buf with
  | nil =>
    have : extractUInt ⟨buf, false, false⟩ v = (⟨[], true, true⟩, v) := by
      unfold extractUInt
      simp [IStream.good, hcs]
    rw [this] at h
    simp [IStream.good] at h
  | cons c body =>
    have he := extractUInt_eq_numGet buf v c body hcs
    rw [hcs] at hbuf
    by_cases hm : c = '-'
    · rw [if_pos hm] at he
      rw [he] at h
      obtain ⟨ds, rest, hb, hne, hds, hv, hr, hh, hn⟩ := numGet_good true body h
      refine ⟨⟨buf.takeWhile isSpace, ['-'], ds⟩, rest,
        ⟨hlead, Or.inr (Or.inl rfl), hne, hds, hv⟩, ?_, hr, hh, ?_⟩
      · refine hbuf.trans ?_
        rw [hm, hb]; simp [Field.text]
      · rw [he, hn]; simp [Field.value]
    · rw [if_neg hm] at he
      by_cases hp : c = '+'
      · rw [if_pos hp] at he
        rw [he] at h
        obtain ⟨ds, rest, hb, hne, hds, hv, hr, hh, hn⟩ := numGet_good false body h
        refine ⟨⟨buf.takeWhile isSpace, ['+'], ds⟩, rest,
          ⟨hlead, Or.inr (Or.inr rfl), hne, hds, hv⟩, ?_, hr, hh, ?_⟩
        · refine hbuf.trans ?_
          rw [hp, hb]; simp [Field.text]
        · rw [he, hn]; simp [Field.value]
      · rw [if_neg hp] at he
        rw [he] at h
        obtain ⟨ds, rest, hb, hne, hds, hv, hr, hh, hn⟩ := numGet_good false (c :: body) h
        refine ⟨⟨buf.takeWhile isSpace, [], ds⟩, rest,
          ⟨hlead, Or.inl rfl, hne, hds, hv⟩, ?_, hr, hh, ?_⟩
        · refine hbuf.trans ?_
          rw [hb]; simp [Field.text]
        · rw [he, hn]; simp [Field.value]

theorem skipWs_field_text (f : Field) (tail : List Char) (hf : f.Valid) :
    skipWs (f.text ++ tail) = f.sign ++ (f.digits ++ tail) ∧
      ∃ c body, f.sign ++ (f.digits ++ tail) = c :: body ∧ isSpace c = false := by
  obtain ⟨hl, hs, hne, hds, _⟩ := hf
  obtain ⟨d, ds, hd⟩ := List.exists_cons_of_ne_nil hne
  have hdd : isDigit d = true := hds d (by rw [hd]; exact List.mem_cons_self _ _)
  have hsp : ∃ c body, f.sign ++ (f.digits ++ tail) = c :: body ∧ isSpace c = false := by
    rcases hs with h | h | h
    · exact ⟨d, ds ++ tail, by rw [h, hd]; rfl, isSpace_of_isDigit hdd⟩
    · exact ⟨'-', f.digits ++ tail, by rw [h]; rfl, by decide⟩
    · exact ⟨'+', f.digits ++ tail, by rw [h]; rfl, by decide⟩
  refine ⟨?_, hsp⟩
  obtain ⟨c, body, hcb, hc⟩ := hsp
  rw [Field.text, List.append_assoc, List.append_assoc, skipWs_append _ _ hl, hcb]
  exact skipWs_cons _ hc

theorem numGet_run (negative : Bool) (ds tail : List Char) (hne : ds ≠ [])
    (hds : ∀ c ∈ ds, isDigit c = true) (hv : decValue ds < 2 ^ 32)
    (ht : ∀ c ∈ tail.head?, isDigit c = false) :
    numGet negative (ds ++ tail) =
      (⟨tail, tail.isEmpty, false⟩,
        if negative then (2 ^ 32 - decValue ds) % 2 ^ 32 else decValue ds) := by
  have h1 := takeWhile_run isDigit ds tail hds ht
  have h2 := dropWhile_run isDigit ds tail hds ht
  have h3 : ds.isEmpty = false := by
    cases ds with
    | nil => exact absurd rfl hne
    | cons _ _ => rfl
  have h4 : ¬ decValue ds > UINT_MAX := by simp only [UINT_MAX]; omega
  unfold numGet
  rw [h1, h2]
  simp only [h3, h4, if_false, Bool.false_eq_true]

/-- Extraction of a valid field that is followed by no digit: the field is consumed and
its value stored; `eofbit` is set exactly when nothing follows. -/
theorem extractUInt_field (f : Field) (tail : List Char) (v : Nat) (hf : f.Valid)
    (ht : ∀ c ∈ tail.head?, isDigit c = false) :
    extractUInt ⟨f.text ++ tail, false, false⟩ v =
      (⟨tail, tail.isEmpty, false⟩, f.value) := by
  obtain ⟨hsk, c, body, hcb, _⟩ := skipWs_field_text f tail hf
  obtain ⟨_, hs, hne, hds, hv⟩ := hf
  obtain ⟨d, ds, hd⟩ := List.exists_cons_of_ne_nil hne
  have hdd : isDigit d = true := hds d (by rw [hd]; exact List.mem_cons_self _ _)
  have hsg := not_sign_of_isDigit hdd
  rcases hs with h | h | h
  · have hsk' : skipWs (f.text ++ tail) = d :: (ds ++ tail) := by
      rw [hsk, h, hd]; rfl
    rw [extractUInt_eq_numGet _ v d (ds ++ tail) hsk', if_neg hsg.1, if_neg hsg.2]
    have := numGet_run false f.digits tail hne hds hv ht
    rw [hd] at this
    rw [List.cons_append] at this
    rw [this]
    simp [Field.value, h, hd]
  · have hsk' : skipWs (f.text ++ tail) = '-' :: (f.digits ++ tail) := by
      rw [hsk, h]; rfl
    rw [extractUInt_eq_numGet _ v '-' (f.digits ++ tail) hsk', if_pos rfl,
      numGet_run true f.digits tail hne hds hv ht]
    simp [Field.value, h]
  · have hsk' : skipWs (f.text ++ tail) = '+' :: (f.digits ++ tail) := by
      rw [hsk, h]; rfl
    rw [extractUInt_eq_numGet _ v '+' (f.digits ++ tail) hsk', if_neg (by decide), if_pos rfl,
      numGet_run false f.digits tail hne hds hv ht]
    simp [Field.value, h]

/-! ## The loop on any input: fields taken two by two -/

theorem Field.value_lt (f : Field) (hf : f.Valid) : f.value < 2 ^ 32 := by
  unfold Field.value
  split
  · exact Nat.mod_lt _ (by decide)
  · exact hf.2.2.2.2

theorem Field.text_ne_nil (f : Field) (hf : f.Valid) : f.text ≠ [] := by
  intro h
  simp only [Field.text, List.append_eq_nil] at h
  exact hf.2.2.1 h.2.2

theorem head_field_text (f : Field) (x : List Char) (hf : f.Valid) (hd : f.Detached) :
    ∀ c ∈ (f.text ++ x).head?, isDigit c = false := by
  obtain ⟨hl, hs, _, _, _⟩ := hf
  intro c hc
  cases hlead : f.lead with
  | cons l ls =>
    simp only [Field.text, hlead, List.cons_append, List.head?_cons, Option.mem_def,
      Option.some.injEq] at hc
    subst hc
    have h1 := hl l (by rw [hlead]; exact List.mem_cons_self _ _)
    cases h2 : isDigit l
    · rfl
    · rw [isSpace_of_isDigit h2] at h1; exact absurd h1 (by decide)
  | nil =>
    have hsign : f.sign ≠ [] := by
      rcases hd with h | h
      · exact absurd hlead h
      · exact h
    rcases hs with h | h | h
    · exact absurd h hsign
    · simp only [Field.text, hlead, h, List.nil_append, List.cons_append, List.head?_cons,
        Option.mem_def, Option.some.injEq] at hc
      subst hc
      decide
    · simp only [Field.text, hlead, h, List.nil_append, List.cons_append, List.head?_cons,
        Option.mem_def, Option.some.injEq] at hc
      subst hc
      decide

theorem detached_of_head (f : Field) (x : List Char) (hf : f.Valid)
    (h : ∀ c ∈ (f.text ++ x).head?, isDigit c = false) : f.Detached := by
  by_cases hl : f.lead = []
  · by_cases hs : f.sign = []
    · obtain ⟨d, ds, hd⟩ := List.exists_cons_of_ne_nil hf.2.2.1
      have hdd : isDigit d = true := hf.2.2.2.1 d (by rw [hd]; exact List.mem_cons_self _ _)
      have := h d (by simp [Field.text, hl, hs, hd])
      rw [hdd] at this
      exact absurd this (by decide)
    · exact Or.inr hs
  · exact Or.inl hl

theorem fieldsText_head (fs : List Field) (tail : List Char)
    (hv : ∀ f ∈ fs, f.Valid) (hd : ∀ g ∈ fs, g.Detached)
    (ht : tail ≠ []) (hh : ∀ c ∈ tail.head?, isDigit c = false) :
    fieldsText fs ++ tail ≠ [] ∧ ∀ c ∈ (fieldsText fs ++ tail).head?, isDigit c = false := by
  cases fs with
  | nil => exact ⟨by simpa [fieldsText] using ht, by simpa [fieldsText] using hh⟩
  | cons g gs =>
    have hg := hv g (List.mem_cons_self _ _)
    refine ⟨?_, ?_⟩
    · intro h0
      simp only [fieldsText, List.append_eq_nil] at h0
      exact Field.text_ne_nil g hg h0.1.1
    · rw [fieldsText, List.append_assoc]
      exact head_field_text g _ hg (hd g (List.mem_cons_self _ _))

/-- One turn of the loop on two valid fields, with a character that is no digit behind
each: the record of their values is written and the loop goes on behind them. -/
theorem runLoop_field_pair (be : Bool) (f1 f2 : Field) (tail : List Char)
    (out : List Nat) (record : Nat) (h1 : f1.Valid) (h2 : f2.Valid) (hd : f2.Detached)
    (ht : tail ≠ []) (hh : ∀ c ∈ tail.head?, isDigit c = false) :
    runLoop be ⟨f1.text ++ (f2.text ++ tail), false, false⟩ out record =
      runLoop be ⟨tail, false, false⟩ (out ++ recordBytes be (f1.value, f2.value))
        ((record + 1) % 2 ^ 32) := by
  have e1 := extractUInt_field f1 (f2.text ++ tail) 0 h1 (head_field_text f2 tail h2 hd)
  have e2 := extractUInt_field f2 tail 0 h2 hh
  have n1 : (f2.text ++ tail).isEmpty = false := by
    cases h : f2.text ++ tail with
    | nil =>
      simp only [List.append_eq_nil] at h
      exact absurd h.2 ht
    | cons _ _ => rfl
  have n2 : tail.isEmpty = false := by
    cases h : tail with
    | nil => exact absurd h ht
    | cons _ _ => rfl
  rw [n1] at e1
  rw [n2] at e2
  rw [runLoop_step]
  simp only [e1, e2, IStream.eof, IStream.good, Bool.false_eq_true, if_false, Bool.not_false,
    Bool.and_self, Bool.not_true, Nat.mod_eq_of_lt (Field.value_lt f1 h1),
    Nat.mod_eq_of_lt (Field.value_lt f2 h2)]
  simp only [recordBytes, writeUint_eq, List.append_assoc, List.nil_append]

/-- The loop over `k` pairs of valid fields, none of which continues the digits of the
one before, with a character that is no digit behind the last: the `k` records are
written in order and the loop goes on behind the last field. -/
theorem runLoop_fields (be : Bool) (k : Nat) :
    ∀ (fs : List Field) (tail : List Char) (out : List Nat) (record : Nat),
      fs.length = 2 * k → record < 2 ^ 32 →
      (∀ f ∈ fs, f.Valid) → (∀ g ∈ fs.tail, g.Detached) →
      tail ≠ [] → (∀ c ∈ tail.head?, isDigit c = false) →
      runLoop be ⟨fieldsText fs ++ tail, false, false⟩ out record =
        runLoop be ⟨tail, false, false⟩
          (out ++ recordsBytes be (pairsOf (fs.map Field.value)))
          ((record + k) % 2 ^ 32) := by
  induction k with
  | zero =>
    intro fs tail out record hlen hr _ _ _ _
    have : fs = [] := List.length_eq_zero.mp (by omega)
    subst this
    rw [Nat.add_zero, Nat.mod_eq_of_lt hr]
    simp [fieldsText, pairsOf, recordsBytes]
  | succ k ih =>
    intro fs tail out record hlen hr hv hd ht hh
    match fs, hlen, hv, hd with
    | [], hlen, _, _ => simp at hlen
    | [_], hlen, _, _ => simp at hlen; omega
    | f1 :: f2 :: rest, hlen, hv, hd =>
      have h1 : f1.Valid := hv f1 (by simp)
      have h2 : f2.Valid := hv f2 (by simp)
      have hd2 : f2.Detached := hd f2 (by simp)
      have hvr : ∀ f ∈ rest, f.Valid := fun f hf => hv f (by simp [hf])
      have hdr : ∀ g ∈ rest, g.Detached := fun g hg => hd g (by simp [hg])
      have hlen' : rest.length = 2 * k := by simp at hlen; omega
      obtain ⟨hne, hhead⟩ := fieldsText_head rest tail hvr hdr ht hh
      have htxt : fieldsText (f1 :: f2 :: rest) ++ tail =
          f1.text ++ (f2.text ++ (fieldsText rest ++ tail)) := by
        simp [fieldsText]
      have hrec : ((record + 1) % 2 ^ 32 + k) % 2 ^ 32 = (record + (k + 1)) % 2 ^ 32 := by
        omega
      rw [htxt, runLoop_field_pair be f1 f2 _ out record h1 h2 hd2 hne hhead,
        ih rest tail _ _ hlen' (Nat.mod_lt _ (by decide)) hvr
          (fun g hg => hdr g (List.mem_of_mem_tail hg)) ht hh, hrec]
      simp [pairsOf, recordsBytes]

/-- Every run of the loop from a good stream splits the unread input into `k` pairs of
valid fields, each taken whole, and a rest on which the loop stops in its first turn
without writing: the `k` records of the field values are what was written, and a
failure is reported at record `k`.  A property `P` of the unread input that every
successful extraction keeps still holds of the rest. -/
theorem runLoop_decompose (be : Bool) (P : List Char → Prop)
    (hP : ∀ (buf : List Char) (v : Nat), P buf →
      (extractUInt ⟨buf, false, false⟩ v).1.good = true →
      P (extractUInt ⟨buf, false, false⟩ v).1.buf) (n : Nat) :
    ∀ (buf : List Char) (out : List Nat) (record : Nat) (r : WriteResult),
      buf.length < n → record < 2 ^ 32 → P buf →
      runLoop be ⟨buf, false, false⟩ out record = some r →
      ∃ (fs : List Field) (rest : List Char) (k : Nat), fs.length = 2 * k ∧
        (∀ f ∈ fs, f.Valid) ∧ (∀ g ∈ fs.tail, g.Detached) ∧
        buf = fieldsText fs ++ rest ∧
        (fs ≠ [] → rest ≠ [] ∧ ∀ c ∈ rest.head?, isDigit c = false) ∧
        P rest ∧
        (∀ (out' : List Nat) (record' : Nat),
          runLoop be ⟨rest, false, false⟩ out' record' =
            some ⟨r.success, out', if r.success = true then none else some record'⟩) ∧
        r.out = out ++ recordsBytes be (pairsOf (fs.map Field.value)) ∧
        r.errorRecord =
          if r.success = true then none else some ((record + k) % 2 ^ 32) := by
  induction n with
  | zero => intro buf out record r h; omega
  | succ n ih =>
    intro buf out record r hlen hrec hPb hrun
    rw [runLoop_step] at hrun
    simp only [IStream.eof, Bool.false_eq_true, if_false] at hrun
    by_cases c1 : (extractUInt ⟨buf, false, false⟩ 0).1.eofbit = true
    · simp only [c1, if_true, Option.some.injEq] at hrun
      subst hrun
      refine ⟨[], buf, 0, rfl, by simp, by simp, by simp [fieldsText], by simp, hPb, ?_,
        by simp [pairsOf, recordsBytes], by simp⟩
      intro out' record'
      rw [runLoop_step]
      simp [IStream.eof, c1]
    · by_cases c2 : (extractUInt (extractUInt ⟨buf, false, false⟩ 0).1 0).1.good = true
      · have g1 : (extractUInt ⟨buf, false, false⟩ 0).1.good = true := by
          cases hg : (extractUInt ⟨buf, false, false⟩ 0).1.good with
          | true => rfl
          | false =>
            rw [extractUInt_not_good _ 0 hg] at c2
            simp [IStream.good] at c2
        have hP1 := hP buf 0 hPb g1
        obtain ⟨f1, buf1, hv1, hb1, hne1, hh1, e1⟩ := extractUInt_good_field buf 0 g1
        rw [e1] at c2 hrun hP1
        have hP2 := hP buf1 0 hP1 c2
        obtain ⟨f2, buf2, hv2, hb2, hne2, hh2, e2⟩ := extractUInt_good_field buf1 0 c2
        rw [e2] at hP2
        simp only [e2, IStream.good, Bool.not_false, Bool.and_self, Bool.not_true,
          Bool.false_eq_true, if_false, Nat.mod_eq_of_lt (Field.value_lt f1 hv1),
          Nat.mod_eq_of_lt (Field.value_lt f2 hv2)] at hrun
        have hd2 : f2.Detached := detached_of_head f2 buf2 hv2 (by rw [← hb2]; exact hh1)
        have hl2 : buf2.length < n := by
          have l1 : buf.length = f1.text.length + buf1.length := by
            rw [hb1, List.length_append]
          have l2 : buf1.length = f2.text.length + buf2.length := by
            rw [hb2, List.length_append]
          have l3 : 0 < f2.text.length := List.length_pos.mpr (Field.text_ne_nil f2 hv2)
          omega
        obtain ⟨fs, rest, k, hk, hvs, hds, hbs, hrs, hPr, hstop, hout, herr⟩ :=
          ih buf2 _ _ r hl2 (Nat.mod_lt _ (by decide)) hP2 hrun
        have hds' : ∀ g ∈ fs, g.Detached := by
          intro g hg
          cases fs with
          | nil => simp at hg
          | cons g0 gs =>
            rcases List.mem_cons.mp hg with rfl | hg
            · refine detached_of_head g (fieldsText gs ++ rest) (hvs g (by simp)) ?_
              rw [← List.append_assoc, ← fieldsText, ← hbs]
              exact hh2
            · exact hds g hg
        refine ⟨f1 :: f2 :: fs, rest, k + 1, by simp [hk]; omega, ?_, ?_, ?_, ?_, hPr, hstop,
          ?_, ?_⟩
        · intro f hf
          simp only [List.mem_cons] at hf
          rcases hf with rfl | rfl | hf
          · exact hv1
          · exact hv2
          · exact hvs f hf
        · intro g hg
          simp only [List.tail_cons, List.mem_cons] at hg
          rcases hg with rfl | hg
          · exact hd2
          · exact hds' g hg
        · rw [hb1, hb2, hbs]
          simp [fieldsText]
        · intro _
          cases fs with
          | nil =>
            simp only [fieldsText, List.nil_append] at hbs
            rw [← hbs]
            exact ⟨hne2, hh2⟩
          | cons g0 gs => exact hrs (by simp)
        · rw [hout]
          simp [pairsOf, recordsBytes, recordBytes, writeUint_eq]
        · rw [herr]
          have : ((record + 1) % 2 ^ 32 + k) % 2 ^ 32 = (record + (k + 1)) % 2 ^ 32 := by
            omega
          rw [this]
      · simp only [c1, c2, if_false, Bool.not_false, if_true, Bool.false_eq_true,
          Option.some.injEq] at hrun
        subst hrun
        refine ⟨[], buf, 0, rfl, by simp, by simp, by simp [fieldsText], by simp, hPb, ?_,
          by simp [pairsOf, recordsBytes], ?_⟩
        · intro out' record'
          rw [runLoop_step]
          simp [IStream.eof, c1, c2]
        · simp only [Bool.false_eq_true, if_false, Nat.add_zero, Nat.mod_eq_of_lt hrec]

/-- Where the loop stops in its first turn without writing, no further record stands at
the front of the unread input. -/
theorem noPairAhead_of_stop (be : Bool) (rest : List Char) (b : Bool) (e : Option Nat)
    (hstop : runLoop be ⟨rest, false, false⟩ [] 0 = some ⟨b, [], e⟩) : NoPairAhead rest := by
  rintro ⟨f1, f2, rest', h1, h2, hd, hr, hne, hh⟩
  subst hr
  rw [runLoop_field_pair be f1 f2 rest' [] 0 h1 h2 hd hne hh] at hstop
  obtain ⟨ps, hps⟩ := runLoop_out be _ _ _ _ _ (Nat.lt_succ_self _) hstop
  have hlen := congrArg List.length hps
  simp only [List.length_nil, List.nil_append, List.length_append, recordBytes_length] at hlen
  omega

/-- Where no further record stands at the front of the unread input, the loop stops in
its first turn without writing. -/
theorem runLoop_stop_of_noPairAhead (be : Bool) (rest : List Char) (out : List Nat)
    (record : Nat) (r : WriteResult) (hrec : record < 2 ^ 32) (hno : NoPairAhead rest)
    (hrun : runLoop be ⟨rest, false, false⟩ out record = some r) :
    r.out = out ∧ r.errorRecord = if r.success = true then none else some record := by
  obtain ⟨fs, rest', k, hk, hv, hd, hin, hrs, _, _, hout, herr⟩ :=
    runLoop_decompose be (fun _ => True) (fun _ _ _ _ => trivial) (rest.length + 1) rest out
      record r (Nat.lt_succ_self _) hrec trivial hrun
  match fs, hk, hv, hd, hin, hrs, hout, herr with
  | [], hk, _, _, _, _, hout, herr =>
    have hk0 : k = 0 := by simp at hk; omega
    subst hk0
    refine ⟨by simpa [pairsOf, recordsBytes] using hout, ?_⟩
    rw [herr, Nat.add_zero, Nat.mod_eq_of_lt hrec]
  | [_], hk, _, _, _, _, _, _ => simp at hk; omega
  | f1 :: f2 :: fs', _, hv, hd, hin, hrs, _, _ =>
    exfalso
    obtain ⟨hne, hh⟩ := hrs (by simp)
    obtain ⟨hne', hh'⟩ := fieldsText_head fs' rest' (fun f hf => hv f (by simp [hf]))
      (fun g hg => hd g (by simp [hg])) hne hh
    exact hno ⟨f1, f2, fieldsText fs' ++ rest', hv f1 (by simp), hv f2 (by simp),
      hd f2 (by simp), by rw [hin]; simp [fieldsText], hne', hh'⟩

/-- The first `k` pairs of an input determine what the conversion writes: the header
and the `k` records of the pairs, with a failure reported at record `k`. -/
theorem leadingPairs_result (be : Bool) (input : List Char) (fs : List Field)
    (rest : List Char) (k : Nat) (r : WriteResult) (h : LeadingPairs input fs rest k)
    (hr : WriteCrossIndex be input = some r) :
    r.out = header ++ recordsBytes be (pairsOf (fs.map Field.value)) ∧
      r.errorRecord = if r.success = true then none else some (k % 2 ^ 32) := by
  obtain ⟨hk, hv, hd, hin, hrs, hno⟩ := h
  rw [WriteCrossIndex_eq_runLoop, hin] at hr
  by_cases hfs : fs = []
  · subst hfs
    have hk0 : k = 0 := by simp at hk; omega
    subst hk0
    simp only [fieldsText, List.nil_append] at hr
    have := runLoop_stop_of_noPairAhead be rest header 0 r (by decide) hno hr
    simpa [pairsOf, recordsBytes] using this
  · obtain ⟨hne, hh⟩ := hrs hfs
    rw [runLoop_fields be k fs rest header 0 hk (by decide) hv hd hne hh] at hr
    have := runLoop_stop_of_noPairAhead be rest _ _ r (Nat.mod_lt _ (by decide)) hno hr
    rw [Nat.zero_add] at this
    exact this

/-- Every conversion has taken the first `k` pairs of its input, for some `k`; a property
`P` of the unread input that every successful extraction keeps holds of the rest. -/
theorem leadingPairs_exist (be : Bool) (P : List Char → Prop)
    (hP : ∀ (buf : List Char) (v : Nat), P buf →
      (extractUInt ⟨buf, false, false⟩ v).1.good = true →
      P (extractUInt ⟨buf, false, false⟩ v).1.buf)
    (input : List Char) (r : WriteResult) (hPi : P input)
    (hr : WriteCrossIndex be input = some r) :
    ∃ (fs : List Field) (rest : List Char) (k : Nat), LeadingPairs input fs rest k ∧
      P rest := by
  rw [WriteCrossIndex_eq_runLoop] at hr
  obtain ⟨fs, rest, k, hk, hv, hd, hin, hrs, hPr, hstop, _, _⟩ :=
    runLoop_decompose be P hP (input.length + 1) input header 0 r (Nat.lt_succ_self _)
      (by decide) hPi hr
  exact ⟨fs, rest, k, ⟨hk, hv, hd, hin, hrs, noPairAhead_of_stop be rest _ _ (hstop [] 0)⟩,
    hPr⟩

/-! ## A run of digits that is too large and is followed by more input -/

theorem getLast_tail_clean (p : Char) (ps : List Char)
    (h : ∀ x ∈ (p :: ps).getLast?, isDigit x = false) :
    ∀ x ∈ ps.getLast?, isDigit x = false := by
  cases ps with
  | nil => intro x hx; simp at hx
  | cons q qs => simpa using h

/-- Skipping whitespace stops in front of a run of digits that lies ahead. -/
theorem skipWs_ahead (X : List Char) (d : Char) (X' : List Char) (hX : X = d :: X')
    (hd : isDigit d = true) :
    ∀ pre : List Char, (∀ x ∈ pre.getLast?, isDigit x = false) →
      ∃ pre', skipWs (pre ++ X) = pre' ++ X ∧ (∀ x ∈ pre'.getLast?, isDigit x = false) := by
  intro pre
  induction pre with
  | nil =>
    intro _
    refine ⟨[], ?_, by simp⟩
    rw [List.nil_append, hX]
    exact skipWs_cons _ (isSpace_of_isDigit hd)
  | cons p ps ih =>
    intro h
    by_cases hp : isSpace p = true
    · obtain ⟨pre', h1, h2⟩ := ih (getLast_tail_clean p ps h)
      exact ⟨pre', by rw [List.cons_append, skipWs, if_pos hp, h1], h2⟩
    · exact ⟨p :: ps, by rw [List.cons_append, skipWs, if_neg hp], h⟩

/-- Dropping digits in front of a run of digits that lies ahead, behind characters the
last of which is no digit, stops before the run. -/
theorem dropWhile_ahead (X : List Char) :
    ∀ pre : List Char, pre ≠ [] → (∀ x ∈ pre.getLast?, isDigit x = false) →
      ∃ pre', pre' ≠ [] ∧ (pre ++ X).dropWhile isDigit = pre' ++ X ∧
        (∀ x ∈ pre'.getLast?, isDigit x = false) := by
  intro pre
  induction pre with
  | nil => intro h; exact absurd rfl h
  | cons p ps ih =>
    intro _ h
    by_cases hp : isDigit p = true
    · cases ps with
      | nil =>
        have := h p (by simp)
        rw [hp] at this
        exact absurd this (by decide)
      | cons q qs =>
        obtain ⟨pre', h1, h2, h3⟩ := ih (by simp) (getLast_tail_clean p (q :: qs) h)
        exact ⟨pre', h1, by rw [List.cons_append, List.dropWhile_cons, if_pos hp, h2], h3⟩
    · exact ⟨p :: ps, by simp, by rw [List.cons_append, List.dropWhile_cons, if_neg hp], h⟩

/-- The digit stage in front of a run of digits of value `2 ^ 32` or more that is followed
by a character: it does not reach the end of the input, and if it succeeds the run still
lies ahead. -/
theorem numGet_ahead (negative : Bool) (ds : List Char) (c : Char) (post pre : List Char)
    (hne : ds ≠ []) (hds : ∀ x ∈ ds, isDigit x = true) (hc : isDigit c = false)
    (hv : 2 ^ 32 ≤ decValue ds) (hpre : ∀ x ∈ pre.getLast?, isDigit x = false) :
    (numGet negative (pre ++ (ds ++ c :: post))).1.eofbit = false ∧
      ((numGet negative (pre ++ (ds ++ c :: post))).1.failbit = false →
        ∃ pre', (numGet negative (pre ++ (ds ++ c :: post))).1.buf = pre' ++ (ds ++ c :: post) ∧
          (∀ x ∈ pre'.getLast?, isDigit x = false)) := by
  by_cases hp : pre = []
  · subst hp
    have h1 := takeWhile_run isDigit ds (c :: post) hds (by simpa using hc)
    have h2 := dropWhile_run isDigit ds (c :: post) hds (by simpa using hc)
    have h3 : ds.isEmpty = false := by
      cases ds with
      | nil => exact absurd rfl hne
      | cons _ _ => rfl
    have h4 : decValue ds > UINT_MAX := by simp only [UINT_MAX]; omega
    unfold numGet
    rw [List.nil_append, h1, h2]
    simp [h3, h4]
  · obtain ⟨pre', hne', hdrop, hclean⟩ := dropWhile_ahead (ds ++ c :: post) pre hp hpre
    have hemp : (pre' ++ (ds ++ c :: post)).isEmpty = false := by
      cases pre' with
      | nil => exact absurd rfl hne'
      | cons _ _ => rfl
    unfold numGet
    rw [hdrop]
    split
    · exact ⟨hemp, fun h => by simp at h⟩
    · split
      · exact ⟨hemp, fun h => by simp at h⟩
      · exact ⟨hemp, fun _ => ⟨pre', rfl, hclean⟩⟩

/-- An extraction from a good stream in front of a run of digits of value `2 ^ 32` or more
that is followed by a character: it does not set `eofbit`, and if it succeeds the run
still lies ahead. -/
theorem extractUInt_ahead (ds : List Char) (c : Char) (post pre : List Char) (v : Nat)
    (hne : ds ≠ []) (hds : ∀ x ∈ ds, isDigit x = true) (hc : isDigit c = false)
    (hv : 2 ^ 32 ≤ decValue ds) (hpre : ∀ x ∈ pre.getLast?, isDigit x = false) :
    (extractUInt ⟨pre ++ (ds ++ c :: post), false, false⟩ v).1.eofbit = false ∧
      ((extractUInt ⟨pre ++ (ds ++ c :: post), false, false⟩ v).1.failbit = false →
        ∃ pre', (extractUInt ⟨pre ++ (ds ++ c :: post), false, false⟩ v).1.buf =
            pre' ++ (ds ++ c :: post) ∧
          (∀ x ∈ pre'.getLast?, isDigit x = false)) := by
  obtain ⟨d, ds', hd⟩ := List.exists_cons_of_ne_nil hne
  have hdd : isDigit d = true := hds d (by rw [hd]; exact List.mem_cons_self _ _)
  have hsg := not_sign_of_isDigit hdd
  obtain ⟨pre1, hsk, hclean1⟩ := skipWs_ahead (ds ++ c :: post) d (ds' ++ c :: post)
    (by rw [hd]; rfl) hdd pre hpre
  cases pre1 with
  | nil =>
    have hsk' : skipWs (pre ++ (ds ++ c :: post)) = d :: (ds' ++ c :: post) := by
      rw [hsk, hd]; rfl
    rw [extractUInt_eq_numGet _ v d _ hsk', if_neg hsg.1, if_neg hsg.2]
    have := numGet_ahead false ds c post [] hne hds hc hv (by simp)
    rw [List.nil_append, hd] at this
    rw [hd]
    exact this
  | cons p ps =>
    have hsk' : skipWs (pre ++ (ds ++ c :: post)) = p :: (ps ++ (ds ++ c :: post)) := by
      rw [hsk]; rfl
    rw [extractUInt_eq_numGet _ v p _ hsk']
    have hps := getLast_tail_clean p ps hclean1
    by_cases hm : p = '-'
    · rw [if_pos hm]
      exact numGet_ahead true ds c post ps hne hds hc hv hps
    · rw [if_neg hm]
      by_cases hp : p = '+'
      · rw [if_pos hp]
        exact numGet_ahead false ds c post ps hne hds hc hv hps
      · rw [if_neg hp]
        exact numGet_ahead false ds c post (p :: ps) hne hds hc hv hclean1

/-- The digit stage in front of a run of digits of value `2 ^ 32` or more that is taken
whole (no digit follows it): if it succeeds, the run still lies ahead untouched. -/
theorem numGet_keeps_run (negative : Bool) (ds post pre : List Char)
    (hds : ∀ x ∈ ds, isDigit x = true) (hpost : ∀ x ∈ post.head?, isDigit x = false)
    (hv : 2 ^ 32 ≤ decValue ds) (hpre : ∀ x ∈ pre.getLast?, isDigit x = false)
    (hok : (numGet negative (pre ++ (ds ++ post))).1.failbit = false) :
    ∃ pre', (numGet negative (pre ++ (ds ++ post))).1.buf = pre' ++ (ds ++ post) ∧
      (∀ x ∈ pre'.getLast?, isDigit x = false) := by
  by_cases hp : pre = []
  · subst hp
    exfalso
    have h1 := takeWhile_run isDigit ds post hds hpost
    have h4 : decValue ds > UINT_MAX := by simp only [UINT_MAX]; omega
    revert hok
    unfold numGet
    rw [List.nil_append, h1]
    split
    · simp
    · simp [h4]
  · obtain ⟨pre', _, hdrop, hclean⟩ := dropWhile_ahead (ds ++ post) pre hp hpre
    refine ⟨pre', ?_, hclean⟩
    unfold numGet
    rw [hdrop]
    split
    · rfl
    · split <;> rfl

/-- A successful extraction in front of a run of digits of value `2 ^ 32` or more that is
taken whole leaves the run ahead untouched: such a run is never what an extraction
stores. -/
theorem extractUInt_keeps_run (ds post pre : List Char) (v : Nat)
    (hne : ds ≠ []) (hds : ∀ x ∈ ds, isDigit x = true)
    (hpost : ∀ x ∈ post.head?, isDigit x = false)
    (hv : 2 ^ 32 ≤ decValue ds) (hpre : ∀ x ∈ pre.getLast?, isDigit x = false)
    (hok : (extractUInt ⟨pre ++ (ds ++ post), false, false⟩ v).1.good = true) :
    ∃ pre', (extractUInt ⟨pre ++ (ds ++ post), false, false⟩ v).1.buf = pre' ++ (ds ++ post) ∧
      (∀ x ∈ pre'.getLast?, isDigit x = false) := by
  have hfail : (extractUInt ⟨pre ++ (ds ++ post), false, false⟩ v).1.failbit = false := by
    simp only [IStream.good, Bool.and_eq_true, Bool.not_eq_true'] at hok
    exact hok.2
  obtain ⟨d, ds', hd⟩ := List.exists_cons_of_ne_nil hne
  have hdd : isDigit d = true := hds d (by rw [hd]; exact List.mem_cons_self _ _)
  have hsg := not_sign_of_isDigit hdd
  obtain ⟨pre1, hsk, hclean1⟩ := skipWs_ahead (ds ++ post) d (ds' ++ post)
    (by rw [hd]; rfl) hdd pre hpre
  cases pre1 with
  | nil =>
    have hsk' : skipWs (pre ++ (ds ++ post)) = d :: (ds' ++ post) := by
      rw [hsk, hd]; rfl
    rw [extractUInt_eq_numGet _ v d _ hsk', if_neg hsg.1, if_neg hsg.2] at hfail ⊢
    have := numGet_keeps_run false ds post [] hds hpost hv (by simp)
    rw [List.nil_append, hd] at this
    rw [hd]
    exact this hfail
  | cons p ps =>
    have hsk' : skipWs (pre ++ (ds ++ post)) = p :: (ps ++ (ds ++ post)) := by
      rw [hsk]; rfl
    rw [extractUInt_eq_numGet _ v p _ hsk'] at hfail ⊢
    have hps := getLast_tail_clean p ps hclean1
    by_cases hm : p = '-'
    · rw [if_pos hm] at hfail ⊢
      exact numGet_keeps_run true ds post ps hds hpost hv hps hfail
    · rw [if_neg hm] at hfail ⊢
      by_cases hp : p = '+'
      · rw [if_pos hp] at hfail ⊢
        exact numGet_keeps_run false ds post ps hds hpost hv hps hfail
      · rw [if_neg hp] at hfail ⊢
        exact numGet_keeps_run false ds post (p :: ps) hds hpost hv hclean1 hfail

/-- The loop from a good stream in front of a run of digits of value `2 ^ 32` or more
that is followed by a character never reports success. -/
theorem runLoop_ahead (be : Bool) (ds : List Char) (c : Char) (post : List Char)
    (hne : ds ≠ []) (hds : ∀ x ∈ ds, isDigit x = true) (hc : isDigit c = false)
    (hv : 2 ^ 32 ≤ decValue ds) (n : Nat) :
    ∀ (pre : List Char) (out : List Nat) (record : Nat) (r : WriteResult),
      (pre ++ (ds ++ c :: post)).length < n → (∀ x ∈ pre.getLast?, isDigit x = false) →
      runLoop be ⟨pre ++ (ds ++ c :: post), false, false⟩ out record = some r →
      r.success = false := by
  induction n with
  | zero => intro pre out record r h; omega
  | succ n ih =>
    intro pre out record r hlen hpre hrun
    obtain ⟨a1, a2⟩ := extractUInt_ahead ds c post pre 0 hne hds hc hv hpre
    rw [runLoop_step] at hrun
    simp only [IStream.eof, Bool.false_eq_true, if_false, a1] at hrun
    by_cases c2 : (extractUInt (extractUInt ⟨pre ++ (ds ++ c :: post), false, false⟩ 0).1
        0).1.good = true
    · have g1 : (extractUInt ⟨pre ++ (ds ++ c :: post), false, false⟩ 0).1.good = true := by
        cases hg : (extractUInt ⟨pre ++ (ds ++ c :: post), false, false⟩ 0).1.good with
        | true => rfl
        | false =>
          rw [extractUInt_not_good _ 0 hg] at c2
          simp [IStream.good] at c2
      have f1 : (extractUInt ⟨pre ++ (ds ++ c :: post), false, false⟩ 0).1.failbit = false := by
        simp only [IStream.good, a1, Bool.not_false, Bool.true_and, Bool.not_eq_true'] at g1
        exact g1
      obtain ⟨pre1, hb1, hclean1⟩ := a2 f1
      have hs1 : (extractUInt ⟨pre ++ (ds ++ c :: post), false, false⟩ 0).1 =
          ⟨pre1 ++ (ds ++ c :: post), false, false⟩ := by
        cases h : (extractUInt ⟨pre ++ (ds ++ c :: post), false, false⟩ 0).1 with
        | mk b e f =>
          rw [h] at a1 f1 hb1
          simp only at a1 f1 hb1
          rw [a1, f1, hb1]
      have l1 := extractUInt_length_le ⟨pre ++ (ds ++ c :: post), false, false⟩ 0
      have l2 := extractUInt_length_lt
        (extractUInt ⟨pre ++ (ds ++ c :: post), false, false⟩ 0).1 0 c2
      rw [hs1] at c2 hrun l1 l2
      obtain ⟨b1, b2⟩ := extractUInt_ahead ds c post pre1 0 hne hds hc hv hclean1
      have f2 : (extractUInt ⟨pre1 ++ (ds ++ c :: post), false, false⟩ 0).1.failbit = false := by
        have := c2
        simp only [IStream.good, b1, Bool.not_false, Bool.true_and, Bool.not_eq_true'] at this
        exact this
      obtain ⟨pre2, hb2, hclean2⟩ := b2 f2
      have hs2 : (extractUInt ⟨pre1 ++ (ds ++ c :: post), false, false⟩ 0).1 =
          ⟨pre2 ++ (ds ++ c :: post), false, false⟩ := by
        cases h : (extractUInt ⟨pre1 ++ (ds ++ c :: post), false, false⟩ 0).1 with
        | mk b e f =>
          rw [h] at b1 f2 hb2
          simp only at b1 f2 hb2
          rw [b1, f2, hb2]
      simp only [c2, Bool.not_true, Bool.false_eq_true, if_false] at hrun
      rw [hs2] at hrun l2
      simp only at hlen l1 l2
      exact ih pre2 _ _ r (by omega) hclean2 hrun
    · simp only [c2, Bool.not_false, if_true, Option.some.injEq] at hrun
      rw [← hrun]

/-! ## The command line -/

theorem isSwitch_iff (a : String) : isSwitch a = true ↔ ∃ cs, a.data = '-' :: cs := by
  unfold isSwitch
  cases h : a.data with
  | nil => simp
  | cons c cs => simp

theorem parseCommandLineLoop_false (rest : List String) :
    ∀ (fileCount : Nat) (g : Filenames), fileCount ≤ 2 →
      ((parseCommandLineLoop rest fileCount g).1 = false ↔
        (∃ a ∈ rest, isSwitch a = true) ∨ 2 < fileCount + rest.length) := by
  induction rest with
  | nil =>
    intro fileCount g h
    simp [parseCommandLineLoop]
    omega
  | cons arg rest ih =>
    intro fileCount g h
    rw [parseCommandLineLoop]
    by_cases hsw : isSwitch arg = true
    · simp [hsw]
    · by_cases h0 : fileCount = 0
      · subst h0
        simp only [hsw, if_false, if_true, Bool.false_eq_true]
        have e : 2 < 1 + rest.length ↔ 2 < 0 + (rest.length + 1) := by omega
        rw [ih 1 _ (by omega), e]
        simp [hsw]
      · by_cases h1 : fileCount = 1
        · subst h1
          simp only [hsw, if_false, if_true, Bool.false_eq_true, h0]
          have e : 2 < 2 + rest.length ↔ 2 < 1 + (rest.length + 1) := by omega
          rw [ih 2 _ (by omega), e]
          simp [hsw]
        · simp only [hsw, if_false, Bool.false_eq_true, h0, h1, List.length_cons, true_iff]
          right
          omega

/-! ## `main` -/

/-- When the arguments are rejected or a named file does not open, `main` returns 1
without calling `WriteCrossIndex`. -/
theorem main_not_reached (be : Bool) (env : Env) (argv : List String)
    (h : (parseCommandLine argv).1 = false ∨
      inputChars env (parseCommandLine argv).2 = none ∨
      outputOpens env (parseCommandLine argv).2 = false) :
    main be env argv = some ⟨1, none, none, []⟩ := by
  unfold main
  by_cases hcl : (parseCommandLine argv).1 = true
  · by_cases h1 : (parseCommandLine argv).2.inputFilename = ""
    · by_cases h2 : (parseCommandLine argv).2.outputFilename = ""
      · simp [inputChars, outputOpens, hcl, h1, h2] at h
      · simp [inputChars, outputOpens, hcl, h1, h2] at h
        simp [hcl, h1, h2, h]
    · cases hopen : env.openIn (parseCommandLine argv).2.inputFilename with
      | none => simp [hcl, h1, hopen]
      | some cs =>
        by_cases h2 : (parseCommandLine argv).2.outputFilename = ""
        · simp [inputChars, outputOpens, hcl, h1, h2, hopen] at h
        · simp [inputChars, outputOpens, hcl, h1, h2, hopen] at h
          simp [hcl, h1, h2, h, hopen]
  · simp [hcl]

/-- When the arguments are accepted and the named files open, `main` calls
`WriteCrossIndex` on the input and returns 0 or 1 according to its result. -/
theorem main_reached (be : Bool) (env : Env) (argv : List String) (input : List Char)
    (hcl : (parseCommandLine argv).1 = true)
    (hin : inputChars env (parseCommandLine argv).2 = some input)
    (hout : outputOpens env (parseCommandLine argv).2 = true) :
    ∃ i o, main be env argv = (WriteCrossIndex be input).map (Run.ofWrite i o) := by
  unfold main
  by_cases h1 : (parseCommandLine argv).2.inputFilename = ""
  · by_cases h2 : (parseCommandLine argv).2.outputFilename = ""
    · simp [inputChars, h1] at hin
      exact ⟨InputSel.cin, OutputSel.cout, by simp [hcl, h1, h2, hin]⟩
    · simp [inputChars, h1] at hin
      simp [outputOpens, h2] at hout
      exact ⟨InputSel.cin, OutputSel.fout (parseCommandLine argv).2.outputFilename, by simp [hcl, h1, h2, hin, hout]⟩
  · by_cases h2 : (parseCommandLine argv).2.outputFilename = ""
    · simp [inputChars, h1] at hin
      exact ⟨InputSel.fin (parseCommandLine argv).2.inputFilename, OutputSel.cout, by simp [hcl, h1, h2, hin]⟩
    · simp [inputChars, h1] at hin
      simp [outputOpens, h2] at hout
      exact ⟨InputSel.fin (parseCommandLine argv).2.inputFilename,
        OutputSel.fout (parseCommandLine argv).2.outputFilename,
        by simp [hcl, h1, h2, hin, hout]⟩

/-! ## The record counter wraps -/

/-- After `2 ^ 32` complete records the `unsigned int` record counter is back at 0: on
`2 ^ 32` pairs `0 0`, every number followed by a space, and then `x`, the conversion
fails with the diagnostic naming record 0, and all `2 ^ 32` records have been written. -/
theorem WriteCrossIndex_record_wraps (be : Bool) :
    WriteCrossIndex be
        (tokensText (List.replicate (2 * 2 ^ 32) ⟨['0'], [' ']⟩) ++ ['x']) =
      some ⟨false, header ++ recordsBytes be
        (pairsOf ((List.replicate (2 * 2 ^ 32) (⟨['0'], [' ']⟩ : Token)).map
          Token.value)),
        some 0⟩ := by
  have hwf : ∀ t ∈ List.replicate (2 * 2 ^ 32) (⟨['0'], [' ']⟩ : Token), t.WF := by
    intro t ht
    rw [List.eq_of_mem_replicate ht]
    decide
  have hsep : ∀ t ∈ List.replicate (2 * 2 ^ 32) (⟨['0'], [' ']⟩ : Token),
      t.sep ≠ [] := by
    intro t ht
    rw [List.eq_of_mem_replicate ht]
    decide
  obtain ⟨lead', hl', _, _, hrun⟩ := runLoop_pairs be (2 ^ 32)
    (List.replicate (2 * 2 ^ 32) ⟨['0'], [' ']⟩) [] ['x'] header 0
    (List.length_replicate _ _) (by decide) (by simp) hwf hsep
  have h0 : (0 + 2 ^ 32) % 2 ^ 32 = 0 := by norm_num
  rw [List.nil_append, h0] at hrun
  rw [WriteCrossIndex_eq_runLoop, hrun]
  exact runLoop_bad_first be lead' 'x' [] _ _ hl' (by decide) (by decide) (by decide)
    (by decide)

theorem recordsBytes_replicate_length (be : Bool) :
    (recordsBytes be
      (pairsOf ((List.replicate (2 * 2 ^ 32) (⟨['0'], [' ']⟩ : Token)).map
        Token.value))).length = 8 * 2 ^ 32 := by
  rw [recordsBytes_length,
    pairsOf_length _ (2 ^ 32) (by rw [List.length_map, List.length_replicate])]

/-! ## The claims -/

/-- C1 (round trip): for every text of whitespace-separated unsigned decimal tokens
below `2 ^ 32` (whitespace in front allowed, the last token with or without whitespace
behind it) on which `WriteCrossIndex` returns true, decoding the bytes written by the
documented format gives exactly the pairs of the text, in order. -/
theorem C1_round_trip (be : Bool) (lead : List Char) (ts : List Token) (r : WriteResult)
    (hl : ∀ c ∈ lead, isSpace c = true) (hwf : ∀ t ∈ ts, t.WF)
    (hsep : ∀ t ∈ ts.dropLast, t.sep ≠ [])
    (hrun : WriteCrossIndex be (lead ++ tokensText ts) = some r)
    (hs : r.success = true) :
    decodeCrossIndex r.out = some (pairsOf (ts.map Token.value)) := by
  rw [WriteCrossIndex_eq_runLoop] at hrun
  rw [runLoop_tokens_success be ts lead header 0 r hl hwf hsep hrun hs]
  exact decodeCrossIndex_header_records be _
    (pairsOf_bound _ _ (tokens_values_bound ts hwf))

/-- Witness of C1 on the text `"1 2\n3 4\n"`. -/
theorem C1_round_trip_witness :
    WriteCrossIndex false "1 2\n3 4\n".toList =
        some ⟨true, [67, 69, 76, 73, 78, 68, 69, 88, 0, 1,
          1, 0, 0, 0, 2, 0, 0, 0, 3, 0, 0, 0, 4, 0, 0, 0], none⟩ ∧
      decodeCrossIndex [67, 69, 76, 73, 78, 68, 69, 88, 0, 1,
          1, 0, 0, 0, 2, 0, 0, 0, 3, 0, 0, 0, 4, 0, 0, 0] = some [(1, 2), (3, 4)] :=
  ⟨by decide,
    C1_round_trip false []
      [⟨['1'], [' ']⟩, ⟨['2'], ['\n']⟩, ⟨['3'], [' ']⟩, ⟨['4'], ['\n']⟩]
      ⟨true, [67, 69, 76, 73, 78, 68, 69, 88, 0, 1,
          1, 0, 0, 0, 2, 0, 0, 0, 3, 0, 0, 0, 4, 0, 0, 0], none⟩
      (by decide) (by decide) (by decide) (by decide) rfl⟩

/-- C2: for every input of `n` pairs of unsigned decimal integers below `2 ^ 32`, each
integer followed by at least one whitespace character, `WriteCrossIndex` returns true
and writes exactly `8 + 2 + 8 * n` bytes; the input `"1 2\n3 4\n"` gives exactly 26
bytes, which decode to `[(1,2),(3,4)]`. -/
theorem C2_terminated_pairs (be : Bool) (lead : List Char) (ts : List Token) (n : Nat)
    (hl : ∀ c ∈ lead, isSpace c = true) (hwf : ∀ t ∈ ts, t.WF)
    (hterm : ∀ t ∈ ts, t.sep ≠ []) (hn : ts.length = 2 * n) :
    (∃ r, WriteCrossIndex be (lead ++ tokensText ts) = some r ∧ r.success = true ∧
        r.out.length = 8 + 2 + 8 * n) ∧
      (∃ r, WriteCrossIndex be "1 2\n3 4\n".toList = some r ∧ r.success = true ∧
        r.out.length = 26 ∧ decodeCrossIndex r.out = some [(1, 2), (3, 4)]) := by
  constructor
  · refine ⟨_, WriteCrossIndex_terminated be lead ts n hl hwf hterm hn, rfl, ?_⟩
    simp only [List.length_append, recordsBytes_length, header, List.length_cons,
      List.length_nil]
    rw [pairsOf_length _ n (by simpa using hn)]
  · refine ⟨⟨true, [67, 69, 76, 73, 78, 68, 69, 88, 0, 1,
      1, 0, 0, 0, 2, 0, 0, 0, 3, 0, 0, 0, 4, 0, 0, 0], none⟩, ?_, rfl, by decide, by decide⟩
    cases be <;> decide

/-- Witness of C2 on three newline-terminated lines. -/
theorem C2_terminated_pairs_witness :
    (∃ r, WriteCrossIndex true "7 8\n9 10\n11 12\n".toList = some r ∧ r.success = true ∧
        r.out.length = 8 + 2 + 8 * 3) ∧
      (∃ r, WriteCrossIndex true "1 2\n3 4\n".toList = some r ∧ r.success = true ∧
        r.out.length = 26 ∧ decodeCrossIndex r.out = some [(1, 2), (3, 4)]) :=
  C2_terminated_pairs true []
    [⟨['7'], [' ']⟩, ⟨['8'], ['\n']⟩, ⟨['9'], [' ']⟩, ⟨['1', '0'], ['\n']⟩,
      ⟨['1', '1'], [' ']⟩, ⟨['1', '2'], ['\n']⟩] 3
    (by decide) (by decide) (by decide) rfl

/-- C3 (the code departs from the claim): on the input `"5"`, a dangling first field
that runs up to the end of the stream, `WriteCrossIndex` returns true and `main` exits
with code 0; only with whitespace behind the field (`"5\n"`) does it return false. -/
theorem C3_dangling_field_at_end (be : Bool) :
    WriteCrossIndex be "5".toList = some ⟨true, header, none⟩ ∧
      main be ⟨"5".toList, fun _ => none, fun _ => false⟩ ["makexindex"] =
        some ⟨0, some InputSel.cin, some OutputSel.cout, header⟩ ∧
      WriteCrossIndex be "5\n".toList = some ⟨false, header, some 0⟩ := by
  cases be <;> decide

/-- C4 (the code departs from the claim): on the input `"1 2"`, one complete pair with
nothing behind the last integer, `WriteCrossIndex` reports an error at record 0, returns
false and writes no record; with a newline behind it (`"1 2\n"`) the pair is written and
the result is true. -/
theorem C4_complete_pair_at_end (be : Bool) :
    WriteCrossIndex be "1 2".toList = some ⟨false, header, some 0⟩ ∧
      WriteCrossIndex be "1 2\n".toList =
        some ⟨true, header ++ [1, 0, 0, 0, 2, 0, 0, 0], none⟩ := by
  cases be <;> decide

/-- C5 fails as stated: in `"1 12abc\n"` the second token `12abc` is not an unsigned
decimal integer, and `WriteCrossIndex` returns false, but only at the next record: the
record `(1, 12)` has been written. -/
theorem C5_counterexample :
    "12abc".toList.all isDigit = false ∧
      WriteCrossIndex false "1 12abc\n".toList =
        some ⟨false, header ++ [1, 0, 0, 0, 12, 0, 0, 0], some 1⟩ := by
  decide

/-- C5 (amended): after `n` complete records (each token followed by whitespace) let a
record have a numeric first field followed by whitespace.  If its second token starts
with a character that is no digit and no sign (as in `"1 x\n"`), `WriteCrossIndex`
returns false at this record and writes only the `n` records before it.  If its second
token is a run of digits (value below `2 ^ 32`) that goes on with such a character (as in
`"1 12abc\n"`), the run is written as the second field of the record and
`WriteCrossIndex` returns false at the next record. -/
theorem C5_unparseable_second_field (be : Bool) (lead : List Char) (ts : List Token) (n : Nat)
    (a : Token) (ds : List Char) (c : Char) (junk : List Char)
    (hl : ∀ c ∈ lead, isSpace c = true) (hwf : ∀ t ∈ ts, t.WF)
    (hterm : ∀ t ∈ ts, t.sep ≠ []) (hn : ts.length = 2 * n)
    (ha : a.WF) (hsa : a.sep ≠ [])
    (hds : ∀ d ∈ ds, isDigit d = true) (hv : decValue ds < 2 ^ 32)
    (hd : isDigit c = false) (hs : isSpace c = false) (hm : c ≠ '-') (hp : c ≠ '+') :
    WriteCrossIndex be (lead ++ (tokensText ts ++ (a.digits ++ (a.sep ++ c :: junk)))) =
        some ⟨false, header ++ recordsBytes be (pairsOf (ts.map Token.value)),
          some (n % 2 ^ 32)⟩ ∧
      (ds ≠ [] →
        WriteCrossIndex be
            (lead ++ (tokensText ts ++ (a.digits ++ (a.sep ++ (ds ++ c :: junk))))) =
          some ⟨false,
            header ++ recordsBytes be (pairsOf (ts.map Token.value)) ++
              recordBytes be (a.value, decValue ds),
            some ((n + 1) % 2 ^ 32)⟩) := by
  constructor
  · obtain ⟨lead', hl', _, _, hrun⟩ := runLoop_pairs be n ts lead
      (a.digits ++ (a.sep ++ c :: junk)) header 0 hn (by decide) hl hwf hterm
    rw [WriteCrossIndex_eq_runLoop, hrun,
      runLoop_bad_second be lead' a c junk _ _ hl' ha hsa hd hs hm hp, Nat.zero_add]
  · intro hne
    obtain ⟨lead', hl', _, _, hrun⟩ := runLoop_pairs be n ts lead
      (a.digits ++ (a.sep ++ (ds ++ c :: junk))) header 0 hn (by decide) hl hwf hterm
    have hb := runLoop_bad_first be [] c junk
      (header ++ recordsBytes be (pairsOf (ts.map Token.value)) ++
        recordBytes be (a.value, decValue ds))
      (((0 + n) % 2 ^ 32 + 1) % 2 ^ 32) (by simp) hd hs hm hp
    rw [List.nil_append] at hb
    rw [WriteCrossIndex_eq_runLoop, hrun,
      runLoop_pair_then_junk be lead' a ds c junk _ _ hl' ha hsa hne hds hv hd, hb]
    have : ((0 + n) % 2 ^ 32 + 1) % 2 ^ 32 = (n + 1) % 2 ^ 32 := by omega
    rw [this]

/-- Witness of C5 (amended) on `"1 2\n3 abc\n"` and `"1 2\n3 12abc\n"`. -/
theorem C5_unparseable_second_field_witness :
    WriteCrossIndex false "1 2\n3 abc\n".toList =
        some ⟨false, header ++ [1, 0, 0, 0, 2, 0, 0, 0], some 1⟩ ∧
      WriteCrossIndex false "1 2\n3 12abc\n".toList =
        some ⟨false, header ++ [1, 0, 0, 0, 2, 0, 0, 0] ++ [3, 0, 0, 0, 12, 0, 0, 0],
          some 2⟩ :=
  have h := C5_unparseable_second_field false [] [⟨['1'], [' ']⟩, ⟨['2'], ['\n']⟩] 1
    ⟨['3'], [' ']⟩ ['1', '2'] 'a' ['b', 'c', '\n']
    (by decide) (by decide) (by decide) rfl (by decide) (by decide) (by decide) (by decide)
    (by decide) (by decide) (by decide) (by decide)
  ⟨h.1, h.2 (by decide)⟩

/-- C6: for every input, whether the conversion succeeds or fails, `WriteCrossIndex`
returns, and the bytes it has written begin with the 8 ASCII bytes of `"CELINDEX"`
followed by the version `0x0100` as the two bytes `0x00`, `0x01`. -/
theorem C6_magic_and_version (be : Bool) (input : List Char) :
    ∃ r rest, WriteCrossIndex be input = some r ∧
      r.out = "CELINDEX".toList.map Char.toNat ++ [0x00, 0x01] ++ rest := by
  obtain ⟨r, hr⟩ := WriteCrossIndex_total be input
  have hrun := hr
  rw [WriteCrossIndex_eq_runLoop] at hrun
  obtain ⟨ps, hps⟩ := runLoop_out be (input.length + 1) _ _ _ r (Nat.lt_succ_self _) hrun
  exact ⟨r, recordsBytes be ps, hr, by rw [hps]; rfl⟩

/-- C7: `writeUint` of a 32-bit value `n` appends exactly four bytes `b0 b1 b2 b3`, each
below 256, with `n = b0 + 256*b1 + 65536*b2 + 16777216*b3`, on a host of either byte
order; and on an input of complete records what `WriteCrossIndex` writes after the
header is, record by record in input order, `writeUint` of the external number followed
by `writeUint` of the internal number. -/
theorem C7_record_layout (be : Bool) (out : List Nat) (v : Nat) (hv : v < 2 ^ 32)
    (lead : List Char) (ts : List Token) (n : Nat)
    (hl : ∀ c ∈ lead, isSpace c = true) (hwf : ∀ t ∈ ts, t.WF)
    (hterm : ∀ t ∈ ts, t.sep ≠ []) (hn : ts.length = 2 * n) :
    (∃ b0 b1 b2 b3, writeUint be out v = out ++ [b0, b1, b2, b3] ∧
        b0 < 256 ∧ b1 < 256 ∧ b2 < 256 ∧ b3 < 256 ∧
        v = b0 + 256 * b1 + 65536 * b2 + 16777216 * b3) ∧
      (∃ r, WriteCrossIndex be (lead ++ tokensText ts) = some r ∧
        r.out = header ++
          ((pairsOf (ts.map Token.value)).map
            (fun p => writeUint be [] p.1 ++ writeUint be [] p.2)).flatten) := by
  constructor
  · refine ⟨v % 256, v / 256 % 256, v / 65536 % 256, v / 16777216 % 256,
      writeUint_eq be out v, ?_, ?_, ?_, ?_, ?_⟩ <;> omega
  · have key : ∀ ps : List (Nat × Nat), recordsBytes be ps =
        (ps.map (fun p => writeUint be [] p.1 ++ writeUint be [] p.2)).flatten := by
      intro ps
      induction ps with
      | nil => rfl
      | cons p ps ih =>
        rw [recordsBytes, List.map_cons, List.flatten_cons, ← ih]
        simp only [recordBytes, writeUint_eq, List.nil_append]
    exact ⟨_, WriteCrossIndex_terminated be lead ts n hl hwf hterm hn, by rw [key]⟩

/-- Witness of C7: the value `0x12345678` and the text `"1 2\n3 4\n"`. -/
theorem C7_record_layout_witness :
    (∃ b0 b1 b2 b3, writeUint true [] 305419896 = [] ++ [b0, b1, b2, b3] ∧
        b0 < 256 ∧ b1 < 256 ∧ b2 < 256 ∧ b3 < 256 ∧
        305419896 = b0 + 256 * b1 + 65536 * b2 + 16777216 * b3) ∧
      (∃ r, WriteCrossIndex true "1 2\n3 4\n".toList = some r ∧
        r.out = header ++
          ([(1, 2), (3, 4)].map
            (fun p => writeUint true [] p.1 ++ writeUint true [] p.2)).flatten) :=
  C7_record_layout true [] 305419896 (by decide) []
    [⟨['1'], [' ']⟩, ⟨['2'], ['\n']⟩, ⟨['3'], [' ']⟩, ⟨['4'], ['\n']⟩] 2
    (by decide) (by decide) (by decide) rfl

/-- C8: `parseCommandLine` returns false if and only if some argument after the program
name begins with `'-'` or more than two arguments follow the program name; for every
other argument vector it returns true. -/
theorem C8_usage_error (argv : List String) :
    ((parseCommandLine argv).1 = false ↔
      ((∃ a ∈ argv.drop 1, ∃ cs, a.data = '-' :: cs) ∨ 2 < (argv.drop 1).length)) ∧
    ((parseCommandLine argv).1 = true ↔
      ¬ ((∃ a ∈ argv.drop 1, ∃ cs, a.data = '-' :: cs) ∨ 2 < (argv.drop 1).length)) := by
  have h := parseCommandLineLoop_false (argv.drop 1) 0 ⟨"", ""⟩ (by omega)
  simp only [isSwitch_iff, Nat.zero_add] at h
  refine ⟨h, ?_⟩
  rw [← h]
  simp [parseCommandLine]

/-- C10: `main` always returns, with exit code 0 or 1 and no other.  It returns 1
whenever `parseCommandLine` returns false and whenever `WriteCrossIndex` returns false,
and it returns 0 exactly when the arguments are accepted, the named files open and
`WriteCrossIndex` returns true. -/
theorem C10_exit_code (be : Bool) (env : Env) (argv : List String) :
    ∃ r, main be env argv = some r ∧ (r.exitCode = 0 ∨ r.exitCode = 1) ∧
      ((parseCommandLine argv).1 = false → r.exitCode = 1) ∧
      (∀ input w, (parseCommandLine argv).1 = true →
        inputChars env (parseCommandLine argv).2 = some input →
        outputOpens env (parseCommandLine argv).2 = true →
        WriteCrossIndex be input = some w → w.success = false → r.exitCode = 1) ∧
      (r.exitCode = 0 ↔
        (parseCommandLine argv).1 = true ∧
        ∃ input w, inputChars env (parseCommandLine argv).2 = some input ∧
          outputOpens env (parseCommandLine argv).2 = true ∧
          WriteCrossIndex be input = some w ∧ w.success = true) := by
  by_cases hcl : (parseCommandLine argv).1 = true
  · cases hin : inputChars env (parseCommandLine argv).2 with
    | none =>
      refine ⟨_, main_not_reached be env argv (Or.inr (Or.inl hin)), Or.inr rfl,
        fun _ => rfl, fun _ _ _ h => by simp at h, by simp⟩
    | some input =>
      cases hout : outputOpens env (parseCommandLine argv).2 with
      | false =>
        refine ⟨_, main_not_reached be env argv (Or.inr (Or.inr hout)), Or.inr rfl,
          fun _ => rfl, fun _ _ _ _ h => by simp at h, by simp⟩
      | true =>
        obtain ⟨i, o, hmain⟩ := main_reached be env argv input hcl hin hout
        obtain ⟨w, hw⟩ := WriteCrossIndex_total be input
        rw [hw, Option.map_some'] at hmain
        refine ⟨_, hmain, ?_, ?_, ?_, ?_⟩
        · cases hs : w.success <;> simp [Run.ofWrite, hs]
        · intro h; rw [hcl] at h; exact absurd h (by decide)
        · intro input' w' _ hin' _ hw' hs'
          cases hin'
          rw [hw] at hw'
          cases hw'
          simp [Run.ofWrite, hs']
        · constructor
          · intro h0
            refine ⟨hcl, input, w, rfl, rfl, hw, ?_⟩
            cases hs : w.success
            · simp [Run.ofWrite, hs] at h0
            · rfl
          · rintro ⟨_, input', w', hin', _, hw', hs'⟩
            cases hin'
            rw [hw] at hw'
            cases hw'
            simp [Run.ofWrite, hs']
  · have hcl' : (parseCommandLine argv).1 = false := by
      cases h : (parseCommandLine argv).1
      · rfl
      · exact absurd h hcl
    refine ⟨_, main_not_reached be env argv (Or.inl hcl'), Or.inr rfl,
      fun _ => rfl, fun _ _ h => by simp [hcl'] at h, by simp [hcl']⟩

/-- C12: for the empty input and for every input of whitespace characters only,
`WriteCrossIndex` returns true and has written exactly the 10 header bytes, the magic
`"CELINDEX"` and the version bytes `0x00`, `0x01`, and no record. -/
theorem C12_blank_input (be : Bool) (input : List Char)
    (hws : ∀ c ∈ input, isSpace c = true) :
    WriteCrossIndex be [] =
        some ⟨true, "CELINDEX".toList.map Char.toNat ++ [0x00, 0x01], none⟩ ∧
      WriteCrossIndex be input =
        some ⟨true, "CELINDEX".toList.map Char.toNat ++ [0x00, 0x01], none⟩ ∧
      ("CELINDEX".toList.map Char.toNat ++ [0x00, 0x01]).length = 10 := by
  have h : ∀ ws : List Char, (∀ c ∈ ws, isSpace c = true) →
      WriteCrossIndex be ws = some ⟨true, header, none⟩ := by
    intro ws hw
    rw [WriteCrossIndex_eq_runLoop, runLoop_blank be ws _ _ hw]
  exact ⟨h [] (by simp), h input hws, rfl⟩

/-- Witness of C12 on the input `" \t\r\n\n"`. -/
theorem C12_blank_input_witness :
    WriteCrossIndex false [] =
        some ⟨true, "CELINDEX".toList.map Char.toNat ++ [0x00, 0x01], none⟩ ∧
      WriteCrossIndex false " \t\r\n\n".toList =
        some ⟨true, "CELINDEX".toList.map Char.toNat ++ [0x00, 0x01], none⟩ ∧
      ("CELINDEX".toList.map Char.toNat ++ [0x00, 0x01]).length = 10 :=
  C12_blank_input false " \t\r\n\n".toList (by decide)

/-- C13: for every input text, whether the conversion succeeds or fails,
`WriteCrossIndex` returns and the number of bytes it has written is `10 + 8 * k` for
some `k`: the output is the header followed by `k` whole records, and decoding it never
meets a trailing partial record. -/
theorem C13_whole_records (be : Bool) (input : List Char) :
    ∃ r k, WriteCrossIndex be input = some r ∧ r.out.length = 10 + 8 * k ∧
      ∃ ps, ps.length = k ∧ r.out = header ++ recordsBytes be ps ∧
        decodeCrossIndex r.out = some ps := by
  obtain ⟨r, hr⟩ := WriteCrossIndex_total be input
  have hrun := hr
  rw [WriteCrossIndex_eq_runLoop] at hrun
  obtain ⟨ps, hb, hps⟩ :=
    runLoop_out_records be (input.length + 1) _ _ _ r (Nat.lt_succ_self _) hrun
  refine ⟨r, ps.length, hr, ?_, ps, rfl, hps, ?_⟩
  · rw [hps, List.length_append, recordsBytes_length]
    rfl
  · rw [hps]
    exact decodeCrossIndex_header_records be ps hb

/-- C14 fails as stated, in two ways.  The input `"1 2x"` fails at record 1 with the
record `(1, 2)` written, but the conversion of just that pair, `"1 2"`, writes no record
and fails at record 0, so it does not produce the same bytes.  And on `2 ^ 32` pairs
`0 0`, every number followed by a space, and then `x`, the diagnostic names record 0,
the `unsigned int` counter having wrapped, while `2 ^ 32` records, `8 * 2 ^ 32` bytes
behind the header, were written. -/
theorem C14_counterexample :
    (WriteCrossIndex false "1 2x".toList =
        some ⟨false, header ++ [1, 0, 0, 0, 2, 0, 0, 0], some 1⟩ ∧
      WriteCrossIndex false "1 2".toList = some ⟨false, header, some 0⟩) ∧
    (WriteCrossIndex false
        (tokensText (List.replicate (2 * 2 ^ 32) ⟨['0'], [' ']⟩) ++ ['x']) =
      some ⟨false, header ++ recordsBytes false
        (pairsOf ((List.replicate (2 * 2 ^ 32) (⟨['0'], [' ']⟩ : Token)).map
          Token.value)),
        some 0⟩ ∧
      (recordsBytes false
        (pairsOf ((List.replicate (2 * 2 ^ 32) (⟨['0'], [' ']⟩ : Token)).map
          Token.value))).length = 8 * 2 ^ 32) :=
  ⟨by decide, WriteCrossIndex_record_wraps false, recordsBytes_replicate_length false⟩

/-- C14 (amended): failure keeps the records converted so far.  For every input on which
`WriteCrossIndex` returns false, the input has first `k` pairs for some `k`, the
diagnostic names record `k` (as an `unsigned int`, so modulo `2 ^ 32`), and the bytes
written are exactly the header followed by the records of these `k` pairs in order: the
same bytes that the conversion of just these `k` pairs, closed by a newline, writes with
success.  The first `k` pairs of the input, however they are split off, determine these
bytes and this record number. -/
theorem C14_failure_keeps_records (be : Bool) (input : List Char) (r : WriteResult)
    (hrun : WriteCrossIndex be input = some r) (hfail : r.success = false) :
    (∃ (fs : List Field) (rest : List Char) (k : Nat), LeadingPairs input fs rest k ∧
      r.errorRecord = some (k % 2 ^ 32) ∧
      r.out = header ++ recordsBytes be (pairsOf (fs.map Field.value)) ∧
      WriteCrossIndex be (fieldsText fs ++ ['\n']) = some ⟨true, r.out, none⟩) ∧
    (∀ (fs : List Field) (rest : List Char) (k : Nat), LeadingPairs input fs rest k →
      r.errorRecord = some (k % 2 ^ 32) ∧
      r.out = header ++ recordsBytes be (pairsOf (fs.map Field.value))) := by
  have key : ∀ (fs : List Field) (rest : List Char) (k : Nat),
      LeadingPairs input fs rest k →
      r.errorRecord = some (k % 2 ^ 32) ∧
      r.out = header ++ recordsBytes be (pairsOf (fs.map Field.value)) := by
    intro fs rest k h
    obtain ⟨h1, h2⟩ := leadingPairs_result be input fs rest k r h hrun
    rw [hfail] at h2
    exact ⟨by simpa using h2, h1⟩
  refine ⟨?_, key⟩
  obtain ⟨fs, rest, k, hlp, _⟩ :=
    leadingPairs_exist be (fun _ => True) (fun _ _ _ _ => trivial) input r trivial hrun
  obtain ⟨herr, hout⟩ := key fs rest k hlp
  refine ⟨fs, rest, k, hlp, herr, hout, ?_⟩
  rw [WriteCrossIndex_eq_runLoop,
    runLoop_fields be k fs ['\n'] header 0 hlp.1 (by decide) hlp.2.1 hlp.2.2.1 (by simp)
      (by decide),
    runLoop_blank be ['\n'] _ _ (by decide), hout]

/-- Witness of C14 (amended) on `"1 23 x"`, which fails at record 1 with the record
`(1, 23)` written. -/
theorem C14_failure_keeps_records_witness :
    (∃ (fs : List Field) (rest : List Char) (k : Nat),
      LeadingPairs "1 23 x".toList fs rest k ∧
      some 1 = some (k % 2 ^ 32) ∧
      header ++ [1, 0, 0, 0, 23, 0, 0, 0] =
        header ++ recordsBytes false (pairsOf (fs.map Field.value)) ∧
      WriteCrossIndex false (fieldsText fs ++ ['\n']) =
        some ⟨true, header ++ [1, 0, 0, 0, 23, 0, 0, 0], none⟩) ∧
    (∀ (fs : List Field) (rest : List Char) (k : Nat),
      LeadingPairs "1 23 x".toList fs rest k →
      some 1 = some (k % 2 ^ 32) ∧
      header ++ [1, 0, 0, 0, 23, 0, 0, 0] =
        header ++ recordsBytes false (pairsOf (fs.map Field.value))) :=
  C14_failure_keeps_records false "1 23 x".toList
    ⟨false, header ++ [1, 0, 0, 0, 23, 0, 0, 0], some 1⟩ (by decide) rfl

/-- C15 fails as stated: on `"-5 1\n"` the conversion succeeds and the record written
holds `4294967291 = 2 ^ 32 - 5` as its first number, the value `-5` of the first token
reduced modulo `2 ^ 32`. -/
theorem C15_counterexample :
    WriteCrossIndex false "-5 1\n".toList =
        some ⟨true, header ++ [251, 255, 255, 255, 1, 0, 0, 0], none⟩ ∧
      decodeCrossIndex (header ++ [251, 255, 255, 255, 1, 0, 0, 0]) =
        some [(4294967291, 1)] ∧
      4294967291 = 2 ^ 32 - 5 := by
  decide

/-- C15 (amended): for every input, what `WriteCrossIndex` has written is the header
followed by the records of the first `k` pairs of the input, for some `k`, and these
pairs, however they are split off, determine the bytes.  The number written for a field
comes from its whole run of decimal digits, whose value is below `2 ^ 32`: it is that
value when no minus sign stands in front of the run, and `2 ^ 32` minus that value
(modulo `2 ^ 32`) when one does.  A whole run of digits of value `2 ^ 32` or more is
never written: it lies in the part of the input behind the pairs converted, and when a
further character follows it the conversion returns false. -/
theorem C15_written_values (be : Bool) (input : List Char) :
    ∃ r, WriteCrossIndex be input = some r ∧
      (∃ (fs : List Field) (rest : List Char) (k : Nat), LeadingPairs input fs rest k ∧
        r.out = header ++ recordsBytes be (pairsOf (fs.map Field.value)) ∧
        (∀ f ∈ fs, decValue f.digits < 2 ^ 32 ∧
          (f.sign ≠ ['-'] → f.value = decValue f.digits) ∧
          (f.sign = ['-'] → f.value = (2 ^ 32 - decValue f.digits) % 2 ^ 32)) ∧
        (∀ (pre ds post : List Char),
          input = pre ++ (ds ++ post) → ds ≠ [] → (∀ x ∈ ds, isDigit x = true) →
          (∀ x ∈ pre.getLast?, isDigit x = false) → (∀ x ∈ post.head?, isDigit x = false) →
          2 ^ 32 ≤ decValue ds →
          (∃ pre', rest = pre' ++ (ds ++ post)) ∧ (post ≠ [] → r.success = false))) ∧
      (∀ (fs : List Field) (rest : List Char) (k : Nat), LeadingPairs input fs rest k →
        r.out = header ++ recordsBytes be (pairsOf (fs.map Field.value))) := by
  obtain ⟨r, hr⟩ := WriteCrossIndex_total be input
  have hrun := hr
  rw [WriteCrossIndex_eq_runLoop] at hrun
  refine ⟨r, hr, ?_, fun fs rest k h => (leadingPairs_result be input fs rest k r h hr).1⟩
  obtain ⟨fs, rest, k, hlp, hPr⟩ :=
    leadingPairs_exist be
      (fun buf => ∀ (pre ds post : List Char),
        input = pre ++ (ds ++ post) → ds ≠ [] → (∀ x ∈ ds, isDigit x = true) →
        (∀ x ∈ pre.getLast?, isDigit x = false) → (∀ x ∈ post.head?, isDigit x = false) →
        2 ^ 32 ≤ decValue ds →
        ∃ pre', buf = pre' ++ (ds ++ post) ∧ (∀ x ∈ pre'.getLast?, isDigit x = false))
      (by
        intro buf v hbuf hgood pre ds post hin hne hds hpre hpost hov
        obtain ⟨pre1, hb, hclean⟩ := hbuf pre ds post hin hne hds hpre hpost hov
        subst hb
        exact extractUInt_keeps_run ds post pre1 v hne hds hpost hov hclean hgood)
      input r
      (by
        intro pre ds post hin _ _ hpre _ _
        exact ⟨pre, hin, hpre⟩)
      hr
  refine ⟨fs, rest, k, hlp, (leadingPairs_result be input fs rest k r hlp hr).1, ?_, ?_⟩
  · intro f hf
    refine ⟨(hlp.2.1 f hf).2.2.2.2, ?_, ?_⟩
    · intro h; simp [Field.value, h]
    · intro h; simp [Field.value, h]
  · intro pre ds post hin hne hds hpre hpost hov
    obtain ⟨pre', hrest, _⟩ := hPr pre ds post hin hne hds hpre hpost hov
    refine ⟨⟨pre', hrest⟩, ?_⟩
    intro hpne
    obtain ⟨c, post', hc⟩ := List.exists_cons_of_ne_nil hpne
    subst hc
    subst hin
    exact runLoop_ahead be ds c post' hne hds (hpost c (by simp)) hov _ pre header 0 r
      (Nat.lt_succ_self _) hpre hrun

/-- Witness of C15 (amended) on `"1 4772185884"`, whose second token is
`2 ^ 32 + 477218588`: nothing but the header is written and the token lies in the part
left unconverted; and on `"1 4294967296 2\n"`, where the conversion returns false. -/
theorem C15_written_values_witness :
    (∃ (r : WriteResult) (fs : List Field) (rest : List Char) (k : Nat),
      WriteCrossIndex false "1 4772185884".toList = some r ∧
      LeadingPairs "1 4772185884".toList fs rest k ∧
      r.out = header ++ recordsBytes false (pairsOf (fs.map Field.value)) ∧
      r.out = header ∧ ∃ pre', rest = pre' ++ "4772185884".toList) ∧
    (∃ r, WriteCrossIndex false "1 4294967296 2\n".toList = some r ∧
      r.success = false) := by
  constructor
  · obtain ⟨r, hr, ⟨fs, rest, k, hlp, hout, _, hov⟩, _⟩ :=
      C15_written_values false "1 4772185884".toList
    obtain ⟨⟨pre', hrest⟩, _⟩ := hov "1 ".toList "4772185884".toList [] (by decide)
      (by decide) (by decide) (by decide) (by decide) (by decide)
    have hout' : r.out = header := by
      have h2 : WriteCrossIndex false "1 4772185884".toList =
          some ⟨false, header, some 0⟩ := by decide
      rw [h2] at hr
      cases hr
      rfl
    exact ⟨r, fs, rest, k, hr, hlp, hout, hout', pre', by simpa using hrest⟩
  · obtain ⟨r, hr, ⟨fs, rest, k, _, _, _, hov⟩, _⟩ :=
      C15_written_values false "1 4294967296 2\n".toList
    exact ⟨r, hr, (hov "1 ".toList "4294967296".toList " 2\n".toList (by decide) (by decide)
      (by decide) (by decide) (by decide) (by decide)).2 (by decide)⟩

end Makexindex

namespace StarDatabase

/-- C11: the counter for automatically assigned catalog identifiers starts at
`0xfffffffe = 2 ^ 32 - 2`, one below the largest 32-bit unsigned value `2 ^ 32 - 1` and
strictly above `MAX_HIPPARCOS_NUMBER = 999999`. -/
theorem C11_auto_catalog_number_start :
    nextAutoCatalogNumber = 2 ^ 32 - 2 ∧
      nextAutoCatalogNumber < 2 ^ 32 - 1 ∧
      nextAutoCatalogNumber + 1 = IndexNumber_MAX ∧
      MAX_HIPPARCOS_NUMBER = 999999 ∧
      MAX_HIPPARCOS_NUMBER < nextAutoCatalogNumber := by
  decide

end StarDatabase
